import Mathlib

/-!
# Verification of the BG3 mod-translator rule pipeline (bg3translator_v2)

A shallow embedding, in Lean 4, of the rule-based text transformation and
self-improving rule pipeline of the `bg3translator_v2` Python package:

* `bg3_translator_core.py` — `TextProcessor` (encoding cleanup, whitespace
  normalisation, protected expressions), `TranslationCache`, `RuleEngine`,
  `DeepLTranslator.process_text` and `_apply_glossary`;
* `dynamic_rules_manager.py` — `Rule`, `LearningCandidate`,
  `DynamicRulesManager` (rule partitions, `apply_rules`, learning,
  promotion, eviction, review import/export);
* `glossary_manager.py` — the orphaned `get_glossary` (dead code in this
  repository; see the glossary section).

Modelling conventions:

* Python `str` is modelled as `List Char`; `str.replace` is implemented
  faithfully (left-to-right non-overlapping scan, including CPython's
  behaviour on an empty pattern).  A fuel parameter makes the recursion
  structural so that the kernel can evaluate it; the fuel is always the
  length of the scanned string, which is sufficient.
* Python `float` is modelled as `ℚ` (exact arithmetic; the constants used
  by the claims are far from any rounding boundary).
* The external regex engine (`re.sub` on arbitrary rule patterns) and
  `difflib.SequenceMatcher` are opaque collaborators: they are passed as
  explicit function parameters ("oracles"), exactly as the spec treats
  external collaborators.  The one regex family the code builds itself,
  `\bre.escape(term)\b` with `re.IGNORECASE` (glossary terms), is
  implemented concretely, as is `re.findall` for protection patterns,
  which is abstracted as a function from the text to the match list.
* Python dicts are modelled as association lists with unique keys
  (CPython dicts preserve insertion order); `defaultdict` reads of
  missing keys are modelled as returning the default (the implicit key
  insertion performed by `defaultdict.__getitem__` has no observable
  effect on any behaviour treated here, because every membership test in
  the translated code precedes the corresponding read).
* Python `list.sort` / `sorted` are stable; they are modelled with
  Mathlib's `List.insertionSort`, which is also stable, hence produces
  the same list.
-/

/-- Python `str` as a list of characters. -/
abbrev LC := List Char

/-- Turn a Lean string literal into the `List Char` model of a Python string. -/
def s2l (s : String) : LC := s.data

/-! ## `str.replace` (CPython semantics)

`s.replace(old, new)` scans `s` left to right; at each position, if `old`
is a prefix of the remaining text it emits `new` and skips `len(old)`
characters, otherwise it emits one character and advances.  If `old` is
empty, CPython inserts `new` before every character and at the end.  The
scan is implemented with a fuel argument (structural recursion) so that
concrete instances reduce in the kernel; `fuel = s.length` always
suffices because every step consumes at least one character. -/

def replaceAllGo (pat rep : LC) : Nat → LC → LC
  | _, [] => []
  | 0, s => s
  | fuel + 1, c :: rest =>
    if pat.isPrefixOf (c :: rest) then
      rep ++ replaceAllGo pat rep fuel (List.drop (pat.length - 1) rest)
    else
      c :: replaceAllGo pat rep fuel rest

/-- CPython `str.replace(pat, rep)` on `s` (all occurrences). -/
def replaceAll (pat rep s : LC) : LC :=
  if pat = [] then rep ++ s.flatMap (fun c => c :: rep)
  else replaceAllGo pat rep s.length s

theorem replaceAllGo_nil (pat rep : LC) (fuel : Nat) : replaceAllGo pat rep fuel [] = [] := by
  cases fuel <;> rfl

theorem replaceAllGo_fuel (pat rep : LC) :
    ∀ fuel s, s.length ≤ fuel → replaceAllGo pat rep fuel s = replaceAllGo pat rep s.length s := by
  intro fuel
  induction fuel using Nat.strong_induction_on with
  | _ fuel ih =>
    intro s hs
    cases s with
    | nil => rw [replaceAllGo_nil, replaceAllGo_nil]
    | cons c rest =>
      cases fuel with
      | zero => simp at hs
      | succ f =>
        have hs' : rest.length ≤ f := by simp at hs; omega
        have hdl : (List.drop (pat.length - 1) rest).length = rest.length - (pat.length - 1) := by
          simp
        by_cases hp : pat.isPrefixOf (c :: rest)
        · have hL : replaceAllGo pat rep (f + 1) (c :: rest)
              = rep ++ replaceAllGo pat rep f (List.drop (pat.length - 1) rest) := by
            simp [replaceAllGo, hp]
          have hR : replaceAllGo pat rep (c :: rest).length (c :: rest)
              = rep ++ replaceAllGo pat rep rest.length (List.drop (pat.length - 1) rest) := by
            simp only [List.length_cons]
            simp [replaceAllGo, hp]
          rw [hL, hR]
          have h1 : (List.drop (pat.length - 1) rest).length ≤ f := by omega
          have h2 : (List.drop (pat.length - 1) rest).length ≤ rest.length := by omega
          rw [ih f (by omega) _ h1, ih rest.length (by omega) _ h2]
        · have hL : replaceAllGo pat rep (f + 1) (c :: rest)
              = c :: replaceAllGo pat rep f rest := by
            simp [replaceAllGo, hp]
          have hR : replaceAllGo pat rep (c :: rest).length (c :: rest)
              = c :: replaceAllGo pat rep rest.length rest := by
            simp only [List.length_cons]
            simp [replaceAllGo, hp]
          rw [hL, hR, ih f (by omega) rest hs']

/-- The defining equation of `replaceAll` for a non-empty pattern, with the
fuel hidden. -/
theorem replaceAll_eq (pat rep : LC) (hp : pat ≠ []) (s : LC) :
    replaceAll pat rep s =
      match s with
      | [] => []
      | c :: rest =>
        if pat.isPrefixOf (c :: rest) then
          rep ++ replaceAll pat rep (List.drop (pat.length - 1) rest)
        else
          c :: replaceAll pat rep rest := by
  have goAll : ∀ (f : Nat) (t : LC), t.length ≤ f → replaceAllGo pat rep f t = replaceAll pat rep t := by
    intro f t hf
    rw [replaceAllGo_fuel pat rep f t hf]
    simp [replaceAll, hp]
  match s with
  | [] => simp [replaceAll, hp, replaceAllGo]
  | c :: rest =>
    simp only [replaceAll, hp, if_false]
    simp only [replaceAllGo, List.length_cons]
    have hdl : (List.drop (pat.length - 1) rest).length = rest.length - (pat.length - 1) := by
      simp
    by_cases hpre : pat.isPrefixOf (c :: rest)
    · simp only [hpre, if_true]
      rw [goAll rest.length (List.drop (pat.length - 1) rest) (by omega),
        goAll (List.drop (pat.length - 1) rest).length (List.drop (pat.length - 1) rest) le_rfl]
    · simp only [hpre, if_false]
      rw [goAll rest.length rest (by omega)]
      simp

theorem replaceAll_nil (pat rep : LC) (hp : pat ≠ []) : replaceAll pat rep [] = [] := by
  rw [replaceAll_eq pat rep hp]

/-- One scan step when no occurrence starts here. -/
theorem replaceAll_cons_no (pat rep : LC) (hp : pat ≠ []) (c : Char) (rest : LC)
    (h : ¬ pat <+: (c :: rest)) :
    replaceAll pat rep (c :: rest) = c :: replaceAll pat rep rest := by
  rw [replaceAll_eq pat rep hp]
  have : pat.isPrefixOf (c :: rest) = false := by
    rw [← Bool.not_eq_true, List.isPrefixOf_iff_prefix]
    exact h
  simp [this]

/-- One scan step when an occurrence starts here. -/
theorem replaceAll_cons_match (pat rep : LC) (hp : pat ≠ []) (s t : LC) (h : s = pat ++ t) :
    replaceAll pat rep s = rep ++ replaceAll pat rep t := by
  match pat, hp with
  | p :: pat', _ =>
    subst h
    rw [replaceAll_eq (p :: pat') rep (by simp)]
    have hpre : (p :: pat').isPrefixOf (p :: (pat' ++ t)) := by
      rw [List.isPrefixOf_iff_prefix]
      exact ⟨t, by simp⟩
    simp only [List.cons_append, hpre, if_true]
    congr 2
    simp [List.drop_append_eq_append_drop]

/-- If the head of the scanned text cannot begin an occurrence (the pattern
starts with a different character), the scan passes over it.  Generalised to
a whole block of such characters. -/
theorem replaceAll_skip_block (pat rep : LC) (hp : pat ≠ []) (x s : LC)
    (h : ∀ c ∈ x, pat.head? ≠ some c) :
    replaceAll pat rep (x ++ s) = x ++ replaceAll pat rep s := by
  induction x with
  | nil => simp
  | cons c x ih =>
    have hc : pat.head? ≠ some c := h c (by simp)
    have hno : ¬ pat <+: (c :: (x ++ s)) := by
      intro hpre
      match pat, hp with
      | p :: pat', _ =>
        rw [List.cons_prefix_cons] at hpre
        exact hc (by simp [hpre.1])
    rw [List.cons_append, replaceAll_cons_no pat rep hp _ _ hno]
    rw [ih (fun d hd => h d (by simp [hd]))]
    rfl

/-- If the pattern occurs nowhere in `s` (no suffix of `s` starts with it),
the text is unchanged. -/
theorem replaceAll_of_no_occurrence (pat rep : LC) (hp : pat ≠ []) (s : LC)
    (h : ∀ n, ¬ pat <+: List.drop n s) :
    replaceAll pat rep s = s := by
  induction s with
  | nil => exact replaceAll_nil pat rep hp
  | cons c rest ih =>
    have h0 : ¬ pat <+: (c :: rest) := by have := h 0; simpa using this
    rw [replaceAll_cons_no pat rep hp c rest h0]
    rw [ih (fun n => by have := h (n + 1); simpa using this)]

/-! ## Decimal digit strings

CPython's `f"{i}"` renders a natural number in standard decimal.  The model
is again fuel-based so that it evaluates in the kernel. -/

/-- One decimal digit as a character, as in CPython's `str`. -/
def digitChar (n : Nat) : Char :=
  match n with
  | 0 => '0' | 1 => '1' | 2 => '2' | 3 => '3' | 4 => '4'
  | 5 => '5' | 6 => '6' | 7 => '7' | 8 => '8' | _ => '9'

def natDigitsGo : Nat → Nat → LC
  | 0, _ => []
  | fuel + 1, n =>
    if n < 10 then [digitChar n]
    else natDigitsGo fuel (n / 10) ++ [digitChar (n % 10)]

/-- Decimal representation of a natural number, as CPython's `str(n)`. -/
def natDigits (n : Nat) : LC := natDigitsGo (n + 1) n

theorem natDigitsGo_fuel : ∀ fuel n, n < fuel → natDigitsGo fuel n = natDigits n := by
  intro fuel
  induction fuel using Nat.strong_induction_on with
  | _ fuel ih =>
    intro n hn
    match fuel with
    | 0 => omega
    | f + 1 =>
      by_cases h10 : n < 10
      · simp [natDigitsGo, natDigits, h10]
      · have hd : n / 10 < n := Nat.div_lt_self (by omega) (by omega)
        have hL : natDigitsGo (f + 1) n = natDigitsGo f (n / 10) ++ [digitChar (n % 10)] := by
          simp [natDigitsGo, h10]
        have hR : natDigits n = natDigitsGo n (n / 10) ++ [digitChar (n % 10)] := by
          simp [natDigits, natDigitsGo, h10]
        rw [hL, hR]
        by_cases hfn : f = n
        · rw [hfn]
        · rw [ih f (by omega) _ (by omega), ih n (by omega) _ (by omega)]

/-! ## `TextProcessor` (bg3_translator_core.py)

`clean_encoding`, `normalize_whitespace`, `protect_expressions` and
`restore_expressions`, translated directly.  A protection pattern is the
`findall` behaviour of a compiled regex, abstracted as a function from
the searched text to the list of matched substrings (the regex engine is
an external collaborator). -/

/-- The behaviour of `pattern.findall` for one compiled regex, abstracted. -/
abbrev FindAll := LC → List LC

/-- `TextProcessor.ENCODING_FIXES`, in source (dict insertion) order. -/
def ENCODING_FIXES : List (LC × LC) :=
  [(s2l "â€™", s2l "'"), (s2l "â€œ", s2l "\""), (s2l "â€", s2l "\""),
   (s2l "Ã©", s2l "é"), (s2l "Ã ", s2l "à"), (s2l "Ã§", s2l "ç"),
   (s2l "Ã¨", s2l "è"), (s2l "Ã´", s2l "ô")]

/-- `TextProcessor.clean_encoding`. -/
def clean_encoding (text : LC) : LC :=
  if text = [] then text
  else ENCODING_FIXES.foldl (fun result fix => replaceAll fix.1 fix.2 result) text

/-- Python `\s` (the ASCII whitespace class; also what `str.strip()` strips). -/
def isWs (c : Char) : Bool :=
  c = ' ' || c = '\t' || c = '\n' || c = '\x0d' || c = '\x0b' || c = '\x0c'

/-- The action of `re.sub(r"\s+", " ", ·)`: collapse every maximal run of
whitespace to a single space.  The flag records whether the previous
character was part of a whitespace run. -/
def collapseWsGo : Bool → LC → LC
  | _, [] => []
  | prevWs, c :: rest =>
    if isWs c then
      if prevWs then collapseWsGo true rest else ' ' :: collapseWsGo true rest
    else c :: collapseWsGo false rest

/-- Python `str.strip()`. -/
def pyStrip (s : LC) : LC :=
  ((s.dropWhile (fun c => isWs c)).reverse.dropWhile (fun c => isWs c)).reverse

/-- `TextProcessor.normalize_whitespace`. -/
def normalize_whitespace (text : LC) : LC :=
  if text = [] then text else pyStrip (collapseWsGo false text)

/-- The placeholder literal `f"__PROTECTED_{i}_{j}__"`. -/
def placeholder (i j : Nat) : LC :=
  s2l "__PROTECTED_" ++ natDigits i ++ '_' :: (natDigits j ++ s2l "__")

/-- The inner loop of `protect_expressions`: one pattern's matches, with
pattern index `i` and running match index `j`.  Matches are recorded in
the protections dict (an ordered association list here) and every
occurrence of the matched string in the working text is replaced by the
placeholder (this is `str.replace`, hence all occurrences at once). -/
def protectInner (i : Nat) : List LC → Nat → LC × List (LC × LC) → LC × List (LC × LC)
  | [], _, st => st
  | m :: ms, j, st =>
    let ph := placeholder i j
    protectInner i ms (j + 1) (replaceAll m ph st.1, st.2 ++ [(ph, m)])

def protectOuter (text : LC) : Nat → List FindAll → LC × List (LC × LC) → LC × List (LC × LC)
  | _, [], st => st
  | i, p :: ps, st => protectOuter text (i + 1) ps (protectInner i (p text) 0 st)

/-- `TextProcessor.protect_expressions`.  Note that each pattern's
`findall` runs on the original `text`, while the replacements accumulate
in the working copy. -/
def protect_expressions (text : LC) (patterns : List FindAll) : LC × List (LC × LC) :=
  protectOuter text 0 patterns (text, [])

/-- `TextProcessor.restore_expressions`: fold the protections dict in
insertion order, replacing each placeholder by its original text. -/
def restore_expressions (text : LC) (protections : List (LC × LC)) : LC :=
  protections.foldl (fun result pr => replaceAll pr.1 pr.2 result) text

/-! ## `TranslationCache` (bg3_translator_core.py) -/

/-- Ordered-dict lookup (first, hence only, matching key). -/
def alookup : List (LC × LC) → LC → Option LC
  | [], _ => none
  | (k, v) :: rest, key => if k = key then some v else alookup rest key

/-- Ordered-dict assignment: overwrite an existing key in place, else
append (CPython keeps insertion order). -/
def aset : List (LC × LC) → LC → LC → List (LC × LC)
  | [], k, v => [(k, v)]
  | (k', v') :: rest, k, v =>
    if k' = k then (k, v) :: rest else (k', v') :: aset rest k v

structure TranslationCache where
  cache : List (LC × LC)
  hits : Nat
  misses : Nat
deriving DecidableEq

/-- `TranslationCache.get`: returns the hit (or `none`) and the cache with
its statistics updated. -/
def TranslationCache.get (c : TranslationCache) (key : LC) : Option LC × TranslationCache :=
  match alookup c.cache key with
  | some v => (some v, { c with hits := c.hits + 1 })
  | none => (none, { c with misses := c.misses + 1 })

/-- `TranslationCache.set`. -/
def TranslationCache.set (c : TranslationCache) (key value : LC) : TranslationCache :=
  { c with cache := aset c.cache key value }

/-! ## `RuleEngine` (bg3_translator_core.py)

`re.sub(pattern, replacement, text, flags=re.IGNORECASE)` for an
arbitrary rule regex is the external regex engine; it is abstracted as an
oracle returning `some` rewritten text, or `none` when the engine raises
`re.error`. -/

/-- The regex collaborator: pattern, replacement template, text. -/
abbrev SubOracle := LC → LC → LC → Option LC

structure REngine where
  pre_translation : List (LC × LC)
  post_translation : List (LC × LC)
  final_cleanup : List (LC × LC)

/-- `RuleEngine.apply_rules` for one stage's `(pattern, replacement)`
list: each rule is attempted on the current text; `re.error` is caught
per rule and the rule skipped. -/
def REngine.applyStage (sub : SubOracle) (rules : List (LC × LC)) (text : LC) : LC :=
  if text = [] then text
  else rules.foldl (fun result pr =>
    match sub pr.1 pr.2 result with
    | some r => r
    | none => result) text

/-! ## Glossary (glossary_manager.py and `DeepLTranslator._apply_glossary`)

In glossary_manager.py the `GlossaryManager` class body is only its
docstring: the `def learn_from_llm_improvement` on line 17 sits at column
0 and ends the class, and `get_glossary` (lines 72-74) is a `def` nested
inside that module-level function, after its `return` — never executed
and never bound as a method.  So every `GlossaryManager` instance lacks
`get_glossary`, and the `hasattr(self.glossary_manager, 'get_glossary')`
guard opening `DeepLTranslator._apply_glossary`
(bg3_translator_core.py:317) always fails: the executed function returns
its input text unchanged (`apply_glossary_as_executed` below).

The definitions `get_glossary` and `apply_glossary` embed the orphaned
nested code, i.e. the behaviour those lines describe and the spec
documents: sort the term dict by decreasing term length (CPython's
`sorted` is stable; so is `List.insertionSort`), then substitute each
entry with `re.sub(rf"\b{re.escape(term)}\b", translation, ·,
flags=re.IGNORECASE)`; that regex family (a literal between word
boundaries, case-insensitive) is implemented concretely below. -/

/-- Longer-term-first comparison used by `get_glossary` (`key=lambda x: -len(x[0])`). -/
def glossOrder (a b : LC × LC) : Prop := b.1.length ≤ a.1.length

instance : DecidableRel glossOrder := fun a b =>
  inferInstanceAs (Decidable (b.1.length ≤ a.1.length))

/-- The `get_glossary` of glossary_manager.py lines 72-74.  Dead code in
this repository (see the section comment): what it would return if it
were bound as the method the spec and `_apply_glossary`'s body expect. -/
def get_glossary (g : List (LC × LC)) : List (LC × LC) :=
  List.insertionSort glossOrder g

/-- Python `\w` on ASCII (`[a-zA-Z0-9_]`; non-ASCII word characters are
not used by any text treated here). -/
def isWordChar (c : Char) : Bool := c.isAlphanum || c = '_'

def isWordO : Option Char → Bool
  | none => false
  | some c => isWordChar c

/-- `\b` between two neighbouring characters (`none` at the ends). -/
def wordBoundary (a b : Option Char) : Bool := isWordO a != isWordO b

/-- Case-insensitive character equality (`re.IGNORECASE` on ASCII). -/
def ciEq (a b : Char) : Bool := a.toLower = b.toLower

def ciIsPrefix : LC → LC → Bool
  | [], _ => true
  | _ :: _, [] => false
  | a :: as_, b :: bs => ciEq a b && ciIsPrefix as_ bs

/-- The scan of `re.sub(rf"\b{re.escape(term)}\b", rep, s, flags=re.IGNORECASE)`:
leftmost non-overlapping matches; at each position the literal must match
case-insensitively and both ends must sit on word boundaries; scanning
resumes after the matched segment (whose original last character is the
left context for later boundary tests). -/
def wwSubGo (term rep : LC) : Nat → Option Char → LC → LC
  | _, _, [] => []
  | 0, _, s => s
  | f + 1, prev, c :: rest =>
    let matched := List.take term.length (c :: rest)
    let after := (List.drop term.length (c :: rest)).head?
    if ciIsPrefix term (c :: rest) && wordBoundary prev (some c) && wordBoundary matched.getLast? after then
      rep ++ wwSubGo term rep f matched.getLast? (List.drop (term.length - 1) rest)
    else
      c :: wwSubGo term rep f (some c) rest

/-- Whole-word case-insensitive substitution of a literal term. -/
def wwSub (term rep s : LC) : LC :=
  if term = [] then s else wwSubGo term rep s.length none s

/-- The body of `DeepLTranslator._apply_glossary` past its `hasattr`
guard — unreachable in this repository, where the guard always fails
(see the section comment and `apply_glossary_as_executed`). -/
def apply_glossary (g : List (LC × LC)) (text : LC) : LC :=
  (get_glossary g).foldl (fun result pr => wwSub pr.1 pr.2 result) text

/-- Whether any `GlossaryManager` instance has a `get_glossary`
attribute.  The class body ends at the module-level
`learn_from_llm_improvement` (glossary_manager.py line 17) and binds no
methods, so `hasattr(self.glossary_manager, 'get_glossary')` is `False`
for every instance constructed anywhere in the repository. -/
def glossaryManagerHasGetGlossary : Bool := false

/-- `DeepLTranslator._apply_glossary` as actually executed, with its
opening guard `if not hasattr(self.glossary_manager, 'get_glossary'):
return text`. -/
def apply_glossary_as_executed (g : List (LC × LC)) (text : LC) : LC :=
  if glossaryManagerHasGetGlossary then apply_glossary g text else text

/-! ## `DeepLTranslator.process_text` (bg3_translator_core.py)

External collaborators are parameters: `dice` is `DICE_PATTERN.findall`;
`translate` is the DeepL call (`none` = the call raised); `llm` is
`_optimize_with_llm`, which swallows its own failures, so `none` simply
keeps the previous translation; `sub` is the regex engine used by the
rule stages.  The returned pair is (result, cache state). -/

/-- Python `str(bool)` as used in the f-string cache key. -/
def pyBool (b : Bool) : LC := if b then s2l "True" else s2l "False"

def cache_key (cleaned : LC) (use_llm : Bool) : LC := cleaned ++ '_' :: pyBool use_llm

/-- The `try:` body of `process_text` (after the cache miss).  Any failure
of the translation call makes the whole body return the original input
`text` (the `except` branch).  The `glossary` parameter abstracts the
`_apply_glossary` call: `none` models the guarded early return (the case
this repository always takes, since `GlossaryManager` binds no
`get_glossary`), `some g` the substitution the orphaned code describes. -/
def processBody (dice : FindAll) (translate : LC → Option LC) (llm : LC → LC → Option LC)
    (sub : SubOracle) (use_llm : Bool) (openrouter_key : Option LC)
    (engine : REngine) (glossary : Option (List (LC × LC)))
    (cache1 : TranslationCache) (text cleaned key : LC) : LC × TranslationCache :=
  let pp := protect_expressions cleaned [dice]
  let preprocessed := REngine.applyStage sub engine.pre_translation pp.1
  let preprocessed := match glossary with
    | some g => apply_glossary g preprocessed
    | none => preprocessed
  match translate preprocessed with
  | none => (text, cache1)
  | some translated =>
    let translated := REngine.applyStage sub engine.post_translation translated
    let translated :=
      if use_llm then
        match openrouter_key with
        | some k => if k ≠ [] then (llm cleaned translated).getD translated else translated
        | none => translated
      else translated
    let final0 := REngine.applyStage sub engine.final_cleanup translated
    let final := restore_expressions final0 pp.2
    (final, cache1.set key final)

def process_text (dice : FindAll) (translate : LC → Option LC) (llm : LC → LC → Option LC)
    (sub : SubOracle) (use_llm : Bool) (openrouter_key : Option LC)
    (engine : REngine) (glossary : Option (List (LC × LC)))
    (cache : TranslationCache) (text : LC) : LC × TranslationCache :=
  if text = [] ∨ pyStrip text = [] then (text, cache)
  else
    let cleaned := normalize_whitespace (clean_encoding text)
    let key := cache_key cleaned use_llm
    let (cached, cache1) := cache.get key
    match cached with
    | some v =>
      if v ≠ [] then (v, cache1)
      else processBody dice translate llm sub use_llm openrouter_key engine glossary cache1 text cleaned key
    | none => processBody dice translate llm sub use_llm openrouter_key engine glossary cache1 text cleaned key

/-! ## Claim C1 — translation failure returns the original input -/

/-- C1.  For every input text and every rule-set/glossary/cache state, if
the pipeline reaches the machine-translation collaborator (the cache did
not return a usable hit) and that call fails, `process_text` returns the
original input string unchanged — not an empty string and not a partially
protected or rewritten intermediate text.  (On a usable cache hit the
collaborator is never invoked, so no call can fail there.) -/
theorem C1_process_text_translate_failure_returns_input
    (dice : FindAll) (translate : LC → Option LC) (llm : LC → LC → Option LC)
    (sub : SubOracle) (use_llm : Bool) (openrouter_key : Option LC)
    (engine : REngine) (glossary : Option (List (LC × LC)))
    (cache : TranslationCache) (text : LC)
    (hmiss : (cache.get (cache_key (normalize_whitespace (clean_encoding text)) use_llm)).1 = none
      ∨ (cache.get (cache_key (normalize_whitespace (clean_encoding text)) use_llm)).1 = some [])
    (hfail : ∀ s, translate s = none) :
    (process_text dice translate llm sub use_llm openrouter_key engine glossary cache text).1
      = text := by
  by_cases h0 : text = [] ∨ pyStrip text = []
  · simp [process_text, h0]
  · rcases hget : cache.get (cache_key (normalize_whitespace (clean_encoding text)) use_llm)
      with ⟨cached, cache1⟩
    rcases hmiss with hm | hm
    · rw [hget] at hm
      simp only at hm
      subst hm
      simp [process_text, h0, hget, processBody, hfail]
    · rw [hget] at hm
      simp only at hm
      subst hm
      simp [process_text, h0, hget, processBody, hfail]

/-- Witness for C1: a concrete empty cache, failing translator and sample
text; the pipeline returns the input verbatim. -/
theorem C1_witness :
    (process_text (fun _ => []) (fun _ => none) (fun _ _ => none)
      (fun _ _ t => some t) false none ⟨[], [], []⟩ none ⟨[], 0, 0⟩ (s2l "Hello world")).1
      = s2l "Hello world" :=
  C1_process_text_translate_failure_returns_input (fun _ => []) (fun _ => none)
    (fun _ _ => none) (fun _ _ t => some t) false none ⟨[], [], []⟩ none ⟨[], 0, 0⟩
    (s2l "Hello world") (Or.inl rfl) (fun _ => rfl)

/-! ## `DynamicRulesManager` (dynamic_rules_manager.py) — data model -/

/-- `Rule` (dynamic_rules_manager.py).  `confidence` and `success_rate`
are Python floats, modelled exactly as rationals; `created_at` is kept as
an opaque optional timestamp string. -/
structure Rule where
  name : LC
  pattern : LC
  replacement : LC
  description : LC
  stage : LC
  confidence : ℚ
  usage_count : Nat
  success_rate : ℚ
  created_at : Option LC
  mod_specific : Option LC
deriving DecidableEq

/-- `LearningCandidate` (dataclass equality is field-wise, which the
derived `DecidableEq` matches; `list.remove` relies on it). -/
structure LearningCandidate where
  source_text : LC
  original_translation : LC
  improved_translation : LC
  improvement_source : LC
  confidence : ℚ
  frequency : Nat
  detected_pattern : Option LC
  suggested_replacement : Option LC
deriving DecidableEq

/-- The relevant part of `learning_config` (`similarity_threshold` is
never read by the translated code but kept for completeness). -/
structure LearningConfig where
  enabled : Bool
  auto_improve : Bool
  confidence_threshold : ℚ
  max_learned_rules : Nat
  min_frequency_for_pattern : Nat
  similarity_threshold : ℚ

/-- The defaults set in `DynamicRulesManager.__init__`. -/
def defaultLearningConfig : LearningConfig :=
  { enabled := true, auto_improve := true, confidence_threshold := 8/10,
    max_learned_rules := 100, min_frequency_for_pattern := 3,
    similarity_threshold := 9/10 }

/-- A stage-keyed dict of rule lists (`defaultdict(list)`). -/
abbrev RMap := List (LC × List Rule)

/-- `defaultdict(list)` read. -/
def mget (m : RMap) (k : LC) : List Rule :=
  match m with
  | [] => []
  | (k', v) :: rest => if k' = k then v else mget rest k

/-- Dict write: overwrite in place or append the new key (insertion order). -/
def msetR (m : RMap) (k : LC) (v : List Rule) : RMap :=
  match m with
  | [] => [(k, v)]
  | (k', v') :: rest => if k' = k then (k, v) :: rest else (k', v') :: msetR rest k v

/-- The mutable state of a `DynamicRulesManager` (paths and logging are
outside the model; `pattern_frequency` and `error_patterns` are never
read by the translated code). -/
structure DRM where
  base_rules : RMap
  learned_rules : RMap
  mod_specific_rules : List (LC × RMap)
  learning_candidates : List LearningCandidate
  learning_config : LearningConfig

def agetMod (m : List (LC × RMap)) (k : LC) : RMap :=
  match m with
  | [] => []
  | (k', v) :: rest => if k' = k then v else agetMod rest k

def amemMod (m : List (LC × RMap)) (k : LC) : Bool :=
  match m with
  | [] => false
  | (k', _) :: rest => k' = k || amemMod rest k

/-! ### `get_applicable_rules` and `apply_rules`

`apply_rules` iterates over the merged, confidence-sorted list of rule
*objects* and mutates them in place (`usage_count`, `success_rate`).
Object references are modelled as addresses: the source partition plus
the index inside that partition's list for the requested stage.  The
merged list is the address enumeration sorted (stably, like CPython)
by decreasing confidence of the addressed rule. -/

inductive RSrc | base | learned | modsp
deriving DecidableEq

/-- The three partitions contributing to a stage under a mod context.
`mod_name and mod_name in self.mod_specific_rules` requires a truthy
(non-empty) name that is a present key. -/
def stageList (st : DRM) (stage : LC) (mod : Option LC) : RSrc → List Rule
  | .base => mget st.base_rules stage
  | .learned => mget st.learned_rules stage
  | .modsp =>
    match mod with
    | some m => if m ≠ [] ∧ amemMod st.mod_specific_rules m then mget (agetMod st.mod_specific_rules m) stage else []
    | none => []

/-- Dereference a rule object address. -/
def readRule (st : DRM) (stage : LC) (mod : Option LC) (a : RSrc × Nat) : Option Rule :=
  (stageList st stage mod a.1)[a.2]?

def setModRule (m : List (LC × RMap)) (k : LC) (stage : LC) (i : Nat) (r : Rule) : List (LC × RMap) :=
  match m with
  | [] => []
  | (k', v) :: rest =>
    if k' = k then (k', msetR v stage ((mget v stage).set i r)) :: rest
    else (k', v) :: setModRule rest k stage i r

/-- Mutate the rule object at an address (out-of-range writes are no-ops;
they never occur during `apply_rules`). -/
def writeRule (st : DRM) (stage : LC) (mod : Option LC) (a : RSrc × Nat) (r : Rule) : DRM :=
  match a.1 with
  | .base => { st with base_rules := msetR st.base_rules stage ((mget st.base_rules stage).set a.2 r) }
  | .learned => { st with learned_rules := msetR st.learned_rules stage ((mget st.learned_rules stage).set a.2 r) }
  | .modsp =>
    match mod with
    | some m =>
      if m ≠ [] ∧ amemMod st.mod_specific_rules m then
        { st with mod_specific_rules := setModRule st.mod_specific_rules m stage a.2 r }
      else st
    | none => st

/-- Descending-confidence comparison (`key=lambda r: r.confidence, reverse=True`;
CPython's sort is stable, as is `List.insertionSort`). -/
def confOrder (a b : Rule) : Prop := b.confidence ≤ a.confidence

instance : DecidableRel confOrder := fun a b =>
  inferInstanceAs (Decidable (b.confidence ≤ a.confidence))

/-- `DynamicRulesManager.get_applicable_rules`: a fresh merged list —
base, then learned, then mod-specific — sorted by decreasing confidence. -/
def get_applicable_rules (st : DRM) (stage : LC) (mod : Option LC) : List Rule :=
  List.insertionSort confOrder
    (stageList st stage mod .base ++ stageList st stage mod .learned ++ stageList st stage mod .modsp)

def confAt (st : DRM) (stage : LC) (mod : Option LC) (a : RSrc × Nat) : ℚ :=
  ((readRule st stage mod a).map Rule.confidence).getD 0

def addrOrder (st : DRM) (stage : LC) (mod : Option LC) (a b : RSrc × Nat) : Prop :=
  confAt st stage mod b ≤ confAt st stage mod a

instance (st : DRM) (stage : LC) (mod : Option LC) : DecidableRel (addrOrder st stage mod) :=
  fun a b => inferInstanceAs (Decidable (confAt st stage mod b ≤ confAt st stage mod a))

/-- Addresses of the merged rule-object list, in the order `apply_rules`
visits them. -/
def applicableAddrs (st : DRM) (stage : LC) (mod : Option LC) : List (RSrc × Nat) :=
  List.insertionSort (addrOrder st stage mod)
    ((List.range (stageList st stage mod .base).length).map (fun i => (RSrc.base, i))
      ++ (List.range (stageList st stage mod .learned).length).map (fun i => (RSrc.learned, i))
      ++ (List.range (stageList st stage mod .modsp).length).map (fun i => (RSrc.modsp, i)))

/-- The loop body of `DynamicRulesManager.apply_rules`: try each rule on
the current text; `re.error` (`sub … = none`) penalises the rule's
`success_rate` by `*= 0.9` and skips it; an effective rewrite (changed
text) increments the rule's `usage_count`. -/
def apply_rules_go (sub : SubOracle) (stage : LC) (mod : Option LC) :
    List (RSrc × Nat) → DRM → LC → LC × DRM
  | [], st, t => (t, st)
  | a :: rest, st, t =>
    match readRule st stage mod a with
    | none => apply_rules_go sub stage mod rest st t
    | some r =>
      match sub r.pattern r.replacement t with
      | none =>
        apply_rules_go sub stage mod rest
          (writeRule st stage mod a { r with success_rate := r.success_rate * (9/10) }) t
      | some t' =>
        if t' = t then apply_rules_go sub stage mod rest st t
        else
          apply_rules_go sub stage mod rest
            (writeRule st stage mod a { r with usage_count := r.usage_count + 1 }) t'

/-- `DynamicRulesManager.apply_rules` (returns the rewritten text and the
state with the mutated rule objects). -/
def apply_rules (sub : SubOracle) (st : DRM) (stage : LC) (mod : Option LC) (text : LC) :
    LC × DRM :=
  if text = [] then (text, st)
  else apply_rules_go sub stage mod (applicableAddrs st stage mod) st text

/-! ### Learning: pattern detection, candidates, promotion

`difflib.SequenceMatcher(None, a, b).get_opcodes()` is an external
library collaborator, abstracted as an oracle yielding the opcode list. -/

inductive DTag | equal | replace | delete | insert
deriving DecidableEq

/-- One `get_opcodes()` entry `(tag, i1, i2, j1, j2)`. -/
structure Opcode where
  tag : DTag
  i1 : Nat
  i2 : Nat
  j1 : Nat
  j2 : Nat
deriving DecidableEq

/-- The behaviour of `SequenceMatcher(None, a, b).get_opcodes()`. -/
abbrev OpOracle := LC → LC → List Opcode

/-- Python `str.split()` (split on whitespace runs, dropping empties). -/
def pySplitGo : LC → LC → List LC
  | cur, [] => if cur = [] then [] else [cur.reverse]
  | cur, c :: rest =>
    if isWs c then
      (if cur = [] then pySplitGo [] rest else cur.reverse :: pySplitGo [] rest)
    else pySplitGo (c :: cur) rest

def pySplit (s : LC) : List LC := pySplitGo [] s

/-- `re.escape` (Python ≥ 3.7: backslash-escape exactly the special
characters). -/
def reSpecialChars : List Char :=
  ['(', ')', '[', ']', '\x7b', '\x7d', '?', '*', '+', '-', '|', '^', '$',
   '\\', '.', '&', '~', '#', ' ', '\t', '\n', '\x0d', '\x0b', '\x0c']

def reEscape (s : LC) : LC :=
  s.flatMap (fun c => if c ∈ reSpecialChars then ['\\', c] else [c])

/-- First position where the two word lists differ (`zip` scan). -/
def firstDiff : List LC → List LC → Option (LC × LC)
  | [], _ => none
  | _, [] => none
  | a :: as_, b :: bs => if a ≠ b then some (a, b) else firstDiff as_ bs

/-- Tier 2 of `_detect_improvement_pattern`: the first `replace` opcode
whose spans both exceed 2 characters and whose stripped segments are both
non-empty. -/
def detectTier2 (original improved : LC) : List Opcode → Option LC × Option LC
  | [] => (none, none)
  | op :: ops =>
    if op.tag = DTag.replace ∧ op.i1 + 2 < op.i2 ∧ op.j1 + 2 < op.j2 then
      let oseg := pyStrip ((original.drop op.i1).take (op.i2 - op.i1))
      let iseg := pyStrip ((improved.drop op.j1).take (op.j2 - op.j1))
      if oseg ≠ [] ∧ iseg ≠ [] then (some (reEscape oseg), some iseg)
      else detectTier2 original improved ops
    else detectTier2 original improved ops

/-- `DynamicRulesManager._detect_improvement_pattern`. -/
def detect_improvement_pattern (opc : OpOracle) (original improved : LC) :
    Option LC × Option LC :=
  let ow := pySplit original
  let iw := pySplit improved
  match (if ow.length = iw.length then firstDiff ow iw else none) with
  | some d => (some (s2l "\\b" ++ reEscape d.1 ++ s2l "\\b"), some d.2)
  | none => detectTier2 original improved (opc original improved)

/-- Duplicate detection in `learn_from_llm_improvement`: the first
candidate matching `(source_text, original_translation)` gets its
frequency bumped and its confidence maxed. -/
def bumpDup : List LearningCandidate → LC → LC → ℚ → Option (List LearningCandidate)
  | [], _, _, _ => none
  | c :: cs, src, orig, conf =>
    if c.source_text = src ∧ c.original_translation = orig then
      some ({ c with frequency := c.frequency + 1, confidence := max c.confidence conf } :: cs)
    else
      match bumpDup cs src orig conf with
      | some cs' => some (c :: cs')
      | none => none

/-- Keep the first occurrence of every element, in encounter order. -/
def uniqueFirst (l : List LC) : List LC :=
  l.foldl (fun acc x => if x ∈ acc then acc else acc ++ [x]) []

def countOcc (l : List LC) (x : LC) : Nat := (l.filter (fun y => y = x)).length

/-- `Counter(...).most_common(1)[0][0]`: the most frequent element; ties
are broken by first-seen order (CPython's `most_common` sorts stably over
the insertion-ordered counter). -/
def mostCommon (l : List LC) : Option LC :=
  (uniqueFirst l).foldl
    (fun best x =>
      match best with
      | none => some x
      | some b => if countOcc l b < countOcc l x then some x else best)
    none

def sumFreq (cands : List LearningCandidate) : Nat :=
  (cands.map LearningCandidate.frequency).sum

/-- The frequency-weighted average confidence of a candidate group. -/
def weightedAvg (cands : List LearningCandidate) : ℚ :=
  (cands.map (fun c => c.confidence * (c.frequency : ℚ))).sum / (sumFreq cands : ℚ)

/-- Group the pending candidates that carry a detected pattern by that
pattern, in first-seen order (`defaultdict(list)` keyed by the pattern). -/
def groupAdd (gs : List (LC × List LearningCandidate)) (p : LC) (c : LearningCandidate) :
    List (LC × List LearningCandidate) :=
  match gs with
  | [] => [(p, [c])]
  | (p', cs) :: rest => if p' = p then (p', cs ++ [c]) :: rest else (p', cs) :: groupAdd rest p c

def groupByPattern (cands : List LearningCandidate) : List (LC × List LearningCandidate) :=
  cands.foldl
    (fun gs c =>
      match c.detected_pattern with
      | some p => groupAdd gs p c
      | none => gs)
    []

def removeFirst : List LearningCandidate → LearningCandidate → List LearningCandidate
  | [], _ => []
  | x :: xs, y => if x = y then xs else x :: removeFirst xs y

/-- `self.learning_candidates.remove(candidate)` for each consumed
candidate, guarded by membership. -/
def removeAllCands (l : List LearningCandidate) (cands : List LearningCandidate) :
    List LearningCandidate :=
  cands.foldl (fun acc c => if c ∈ acc then removeFirst acc c else acc) l

/-- Score used by eviction: `confidence * (1 + usage_count) * success_rate`. -/
def rule_score (r : Rule) : ℚ := r.confidence * (1 + (r.usage_count : ℚ)) * r.success_rate

def scoreOrder (a b : Rule) : Prop := rule_score b ≤ rule_score a

instance : DecidableRel scoreOrder := fun a b =>
  inferInstanceAs (Decidable (rule_score b ≤ rule_score a))

/-- `DynamicRulesManager._cleanup_learned_rules`: every stage holding more
than `max_learned_rules` learned rules is sorted by decreasing score
(stable) and truncated to the best `max_learned_rules`. -/
def cleanup_learned_rules (st : DRM) : DRM :=
  let maxR := st.learning_config.max_learned_rules
  { st with learned_rules := st.learned_rules.map (fun kv =>
      if maxR < kv.2.length then (kv.1, (List.insertionSort scoreOrder kv.2).take maxR)
      else kv) }

/-- `DynamicRulesManager.save_learned_rules`: eviction runs first, then the
store is serialised (file I/O is outside the model and reported as
success). -/
def save_learned_rules (st : DRM) : Bool × DRM := (true, cleanup_learned_rules st)

def joinCommaSp : List LC → LC
  | [] => []
  | [x] => x
  | x :: xs => x ++ ',' :: ' ' :: joinCommaSp xs

/-- `DynamicRulesManager._create_learned_rule`.  `now` stands for
`datetime.now().strftime('%Y%m%d_%H%M%S')`; the contributing-source set of
the description is rendered in first-seen order (CPython set order is
unspecified; nothing reads the description). -/
def create_learned_rule (st : DRM) (pattern replacement : LC)
    (cands : List LearningCandidate) (now : LC) : DRM :=
  let stage := s2l "post_translation"
  let rule_name := s2l "learned_" ++ natDigits (mget st.learned_rules stage).length ++ '_' :: now
  let total := sumFreq cands
  let avg := weightedAvg cands
  let description := s2l "Règle apprise automatiquement (sources: "
    ++ joinCommaSp (uniqueFirst (cands.map LearningCandidate.improvement_source))
    ++ s2l ", fréquence: " ++ natDigits total ++ [')']
  let rule : Rule :=
    { name := rule_name, pattern := pattern, replacement := replacement,
      description := description, stage := stage, confidence := avg,
      usage_count := 0, success_rate := 1, created_at := some now, mod_specific := none }
  let st1 := { st with learned_rules := msetR st.learned_rules stage (mget st.learned_rules stage ++ [rule]) }
  let st2 := { st1 with learning_candidates := removeAllCands st1.learning_candidates cands }
  (save_learned_rules st2).2

/-- One group's evaluation inside `_evaluate_learning_candidates`. -/
def evalGroup (st : DRM) (pattern : LC) (cands : List LearningCandidate) (now : LC) : DRM :=
  if st.learning_config.min_frequency_for_pattern ≤ sumFreq cands
      ∧ st.learning_config.confidence_threshold ≤ weightedAvg cands then
    match mostCommon ((cands.filterMap LearningCandidate.suggested_replacement).filter (fun r => r ≠ [])) with
    | some rep => create_learned_rule st pattern rep cands now
    | none => st
  else st

/-- `DynamicRulesManager._evaluate_learning_candidates`: the groups are
computed once from the pending list, then evaluated in first-seen order
(rule creation mutates the candidate list but not the captured groups). -/
def evaluate_learning_candidates (st : DRM) (now : LC) : DRM :=
  if st.learning_candidates = [] then st
  else (groupByPattern st.learning_candidates).foldl (fun s g => evalGroup s g.1 g.2 now) st

/-- `DynamicRulesManager.learn_from_llm_improvement`. -/
def learn_from_llm_improvement (opc : OpOracle) (st : DRM)
    (source_text original_translation improved_translation : LC) (confidence : ℚ)
    (now : LC) : Bool × DRM :=
  if ¬ st.learning_config.enabled then (false, st)
  else
    match bumpDup st.learning_candidates source_text original_translation confidence with
    | some cands' => (true, { st with learning_candidates := cands' })
    | none =>
      let dp := detect_improvement_pattern opc original_translation improved_translation
      let cand : LearningCandidate :=
        { source_text := source_text, original_translation := original_translation,
          improved_translation := improved_translation, improvement_source := s2l "llm",
          confidence := confidence, frequency := 1,
          detected_pattern := dp.1, suggested_replacement := dp.2 }
      let st1 := { st with learning_candidates := st.learning_candidates ++ [cand] }
      let st2 :=
        if st.learning_config.confidence_threshold ≤ confidence ∧ st.learning_config.auto_improve then
          evaluate_learning_candidates st1 now
        else st1
      (true, st2)

/-! ### Review gate (export / import) -/

/-- One serialised entry of a review file (all `Rule` fields plus the
reviewer's verdict). -/
structure ReviewEntry where
  name : LC
  pattern : LC
  replacement : LC
  description : LC
  stage : LC
  confidence : ℚ
  usage_count : Nat
  success_rate : ℚ
  created_at : Option LC
  mod_specific : Option LC
  approved : Option Bool
  review_notes : LC
deriving DecidableEq

/-- `DynamicRulesManager.export_rules_for_review` (the serialised list;
metadata and file I/O are outside the model). -/
def export_rules_for_review (st : DRM) : List ReviewEntry :=
  st.learned_rules.flatMap (fun kv => kv.2.map (fun r =>
    { name := r.name, pattern := r.pattern, replacement := r.replacement,
      description := r.description, stage := r.stage, confidence := r.confidence,
      usage_count := r.usage_count, success_rate := r.success_rate,
      created_at := r.created_at, mod_specific := r.mod_specific,
      approved := none, review_notes := [] }))

/-- `Rule.from_dict` on a reviewed entry. -/
def entryRule (e : ReviewEntry) : Rule :=
  { name := e.name, pattern := e.pattern, replacement := e.replacement,
    description := e.description, stage := e.stage, confidence := e.confidence,
    usage_count := e.usage_count, success_rate := e.success_rate,
    created_at := e.created_at, mod_specific := e.mod_specific }

/-- Approval: overwrite the reviewer-editable fields of the first
same-named rule, or append the rule when absent. -/
def updateOrAppend : List Rule → Rule → List Rule
  | [], rule => [rule]
  | ru :: rus, rule =>
    if ru.name = rule.name then
      { ru with
        pattern := rule.pattern
        replacement := rule.replacement
        description := rule.description
        confidence := rule.confidence } :: rus
    else ru :: updateOrAppend rus rule

/-- The entry loop of `import_reviewed_rules`, threading the approved and
rejected counters. -/
def importGo : List ReviewEntry → DRM → Nat → Nat → Nat × Nat × DRM
  | [], st, a, r => (a, r, st)
  | e :: es, st, a, r =>
    match e.approved with
    | some true =>
      let rule := entryRule e
      let nr := updateOrAppend (mget st.learned_rules rule.stage) rule
      importGo es { st with learned_rules := msetR st.learned_rules rule.stage nr } (a + 1) r
    | some false =>
      let nr := (mget st.learned_rules e.stage).filter (fun ru => ru.name ≠ e.name)
      importGo es { st with learned_rules := msetR st.learned_rules e.stage nr } a (r + 1)
    | none => importGo es st a r

/-- `DynamicRulesManager.import_reviewed_rules`: the returned number of
approvals, the resulting state, and whether `save_learned_rules` ran. -/
def import_reviewed_rules (entries : List ReviewEntry) (st : DRM) : Nat × DRM × Bool :=
  let res := importGo entries st 0 0
  if 0 < res.1 ∨ 0 < res.2.1 then (res.1, (save_learned_rules res.2.2).2, true)
  else (res.1, res.2.2, false)

/-! ## Claim C8 — duplicate occurrences of one protected substring

`protect_expressions` does give every occurrence its own protections
entry, but the masked text is produced with `str.replace`, which rewrites
*all* occurrences at once: the first entry's placeholder takes every
occurrence and the later placeholders never appear in the masked text.
The claim's "distinct placeholder per occurrence appearing in the masked
text" is therefore false; restoration of the duplicate case is still
exact.  The matcher below is `DICE_PATTERN.findall` restricted to the
counterexample text (on `"2d6 2d6"` the dice regex yields
`["2d6", "2d6"]`). -/

def diceTwice : FindAll := fun t => if t = s2l "2d6 2d6" then [s2l "2d6", s2l "2d6"] else []

/-- C8, counterexample: on `"2d6 2d6"` both occurrences are masked by the
first placeholder `__PROTECTED_0_0__`, and the second occurrence's
placeholder `__PROTECTED_0_1__` — although recorded in the protections
dict — does not appear in the masked text at all. -/
theorem C8_cex_second_placeholder_absent_from_masked_text :
    (protect_expressions (s2l "2d6 2d6") [diceTwice]).2
        = [(placeholder 0 0, s2l "2d6"), (placeholder 0 1, s2l "2d6")]
      ∧ (protect_expressions (s2l "2d6 2d6") [diceTwice]).1
        = placeholder 0 0 ++ ' ' :: placeholder 0 0
      ∧ ¬ placeholder 0 1 <:+: (protect_expressions (s2l "2d6 2d6") [diceTwice]).1 := by
  refine ⟨by decide, by decide, by decide⟩

/-- C8 (amended).  For a text with two identical occurrences of a matched
substring, `protect_expressions` tracks each occurrence with its own
protections entry (distinct placeholders in the dict), but the masked
text carries the *first* occurrence's placeholder at every occurrence;
the later placeholder does not occur in the masked text.  Restoration
still reproduces the original text exactly in this situation. -/
theorem C8_duplicates_share_first_placeholder_and_restore_exactly :
    (protect_expressions (s2l "2d6 2d6") [diceTwice]).2
        = [(placeholder 0 0, s2l "2d6"), (placeholder 0 1, s2l "2d6")]
      ∧ placeholder 0 0 ≠ placeholder 0 1
      ∧ (protect_expressions (s2l "2d6 2d6") [diceTwice]).1
        = placeholder 0 0 ++ ' ' :: placeholder 0 0
      ∧ restore_expressions (protect_expressions (s2l "2d6 2d6") [diceTwice]).1
          (protect_expressions (s2l "2d6 2d6") [diceTwice]).2
        = s2l "2d6 2d6" := by
  refine ⟨by decide, by decide, by decide, by decide⟩

/-! ## Claim C2 — `restore ∘ protect` round trip

The round trip is *not* the identity for every text and pattern list: a
matched substring whose characters overlap the placeholder alphabet can
corrupt previously inserted placeholders.  The dice regex `\d` — or any
pattern matching a digit — on the text `"00"` is such a case: after the
first match is masked, masking the second (identical) match rewrites the
digits *inside* the first placeholder.  The round trip then returns
`"__PROTECTED_0_0____PROTECTED_0_0__"` instead of `"00"`.

The repaired statement (theorem `C2_protect_restore_roundtrip` below)
holds whenever the matches are non-empty and neither the text nor any
match uses a placeholder character (underscore, a letter of `PROTECTED`,
or a digit) — which is the situation of the motivating dice-notation
examples (`restore(protect(text))` with N = 0 matches or with repeated
identical matches). -/

/-- `re.findall(r"\d", "00") == ["0", "0"]`, abstracted at the
counterexample text. -/
def digitTwice : FindAll := fun t => if t = s2l "00" then [s2l "0", s2l "0"] else []

/-- C2, counterexample: with a pattern whose matches on `"00"` are
`["0", "0"]`, restoring the protection does not return the original text. -/
theorem C2_cex_roundtrip_fails_on_digit_matches :
    restore_expressions
        (protect_expressions (s2l "00") [digitTwice]).1
        (protect_expressions (s2l "00") [digitTwice]).2
      ≠ s2l "00" := by decide

/-! ## Claim C7 — glossary application is dead code -/

instance : IsTotal (LC × LC) glossOrder :=
  ⟨fun a b => Nat.le_total b.1.length a.1.length⟩

instance : IsTrans (LC × LC) glossOrder :=
  ⟨fun _ _ _ h1 h2 => le_trans h2 h1⟩

/-- The two-term glossary of the claim. -/
def armorGlossary : List (LC × LC) :=
  [(s2l "Armor", s2l "Armure"), (s2l "Heavy Armor", s2l "Armure lourde")]

/-- C7, code bug.  The glossary substitution the claim describes is dead
code: `GlossaryManager` binds no `get_glossary` method, so the `hasattr`
guard in `_apply_glossary` always fails and the executed function
returns every text unchanged for every glossary — in particular the
claim's example input `"Heavy Armor wearers"` comes back unchanged, not
as the claimed `"Armure lourde wearers"`.  The orphaned nested code
(embedded as `get_glossary` / `apply_glossary`) would have realised the
claim: it orders terms by descending length (a permutation, so no term
is lost) and rewrites the example to `"Armure lourde wearers"`. -/
theorem C7_glossary_application_dead_code :
    (∀ (g : List (LC × LC)) (text : LC), apply_glossary_as_executed g text = text)
      ∧ apply_glossary_as_executed armorGlossary (s2l "Heavy Armor wearers")
          = s2l "Heavy Armor wearers"
      ∧ s2l "Heavy Armor wearers" ≠ s2l "Armure lourde wearers"
      ∧ (∀ g : List (LC × LC), (get_glossary g).Sorted glossOrder ∧ (get_glossary g).Perm g)
      ∧ apply_glossary armorGlossary (s2l "Heavy Armor wearers") = s2l "Armure lourde wearers" := by
  refine ⟨fun g text => rfl, rfl, by decide, fun g => ⟨?_, ?_⟩, by decide⟩
  · exact List.sorted_insertionSort glossOrder g
  · exact List.perm_insertionSort glossOrder g

/-! ## Read/write lemmas for the rule-object address model -/

theorem mget_msetR_self (m : RMap) (k : LC) (v : List Rule) : mget (msetR m k v) k = v := by
  induction m with
  | nil => simp [msetR, mget]
  | cons kv rest ih =>
    obtain ⟨k', v'⟩ := kv
    by_cases h : k' = k
    · simp [msetR, mget, h]
    · simp [msetR, mget, h, ih]

theorem mget_msetR_ne (m : RMap) (k k' : LC) (v : List Rule) (h : k' ≠ k) :
    mget (msetR m k v) k' = mget m k' := by
  induction m with
  | nil => simp [msetR, mget, Ne.symm h]
  | cons kv rest ih =>
    obtain ⟨k0, v0⟩ := kv
    by_cases h0 : k0 = k
    · subst h0
      simp [msetR, mget, Ne.symm h, h]
    · by_cases h1 : k0 = k'
      · simp [msetR, mget, h0, h1, h]
      · simp [msetR, mget, h0, h1, ih]

theorem amemMod_setModRule (m : List (LC × RMap)) (k k' : LC) (stage : LC) (i : Nat) (r : Rule) :
    amemMod (setModRule m k stage i r) k' = amemMod m k' := by
  induction m with
  | nil => simp [setModRule]
  | cons kv rest ih =>
    obtain ⟨k0, v0⟩ := kv
    by_cases h : k0 = k
    · simp [setModRule, h, amemMod]
    · simp [setModRule, h, amemMod, ih]

theorem agetMod_setModRule_self (m : List (LC × RMap)) (k : LC) (stage : LC) (i : Nat) (r : Rule)
    (hm : amemMod m k = true) :
    agetMod (setModRule m k stage i r) k
      = msetR (agetMod m k) stage ((mget (agetMod m k) stage).set i r) := by
  induction m with
  | nil => simp [amemMod] at hm
  | cons kv rest ih =>
    obtain ⟨k0, v0⟩ := kv
    by_cases h : k0 = k
    · simp [setModRule, h, agetMod]
    · simp only [amemMod, Bool.or_eq_true, decide_eq_true_eq] at hm
      rcases hm with hm | hm
      · exact absurd hm h
      · simp [setModRule, h, agetMod, ih hm]

/-- Writing at address `(src, i)` rewrites exactly position `i` of the
`src` partition of the addressed `(stage, mod)` slot. -/
theorem stageList_writeRule (st : DRM) (stage : LC) (mod : Option LC)
    (src : RSrc) (i : Nat) (rnew : Rule) (src' : RSrc) :
    stageList (writeRule st stage mod (src, i) rnew) stage mod src'
      = if src' = src then (stageList st stage mod src).set i rnew
        else stageList st stage mod src' := by
  cases src with
  | base =>
    cases src' with
    | base => simp [writeRule, stageList, mget_msetR_self]
    | learned => simp [writeRule, stageList]
    | modsp => cases mod <;> simp [writeRule, stageList]
  | learned =>
    cases src' with
    | base => simp [writeRule, stageList]
    | learned => simp [writeRule, stageList, mget_msetR_self]
    | modsp => cases mod <;> simp [writeRule, stageList]
  | modsp =>
    cases mod with
    | none => cases src' <;> simp [writeRule, stageList]
    | some m =>
      by_cases h : m ≠ [] ∧ amemMod st.mod_specific_rules m
      · cases src' with
        | base => simp [writeRule, stageList, h]
        | learned => simp [writeRule, stageList, h]
        | modsp =>
          have hmem := amemMod_setModRule st.mod_specific_rules m m stage i rnew
          simp only [writeRule, stageList, h, if_true, reduceIte]
          simp only [ne_eq, h.1, not_false_iff, hmem, h.2, and_true, true_and, if_true, reduceIte]
          rw [agetMod_setModRule_self _ _ _ _ _ h.2, mget_msetR_self]
      · cases src' with
        | base => simp [writeRule, stageList, h]
        | learned => simp [writeRule, stageList, h]
        | modsp => simp [writeRule, stageList, h]

/-- The pattern/replacement view of a rule: the only fields that
determine the text transformation.  `apply_rules` never writes them, so
the text evolution can be read off a fixed snapshot of the state. -/
def patRep (r : Rule) : LC × LC := (r.pattern, r.replacement)

/-- The text transformation of one visited rule object, on a state
snapshot. -/
def applyPureStep (sub : SubOracle) (stage : LC) (mod : Option LC) (st0 : DRM)
    (t : LC) (a : RSrc × Nat) : LC :=
  match readRule st0 stage mod a with
  | none => t
  | some r => (sub r.pattern r.replacement t).getD t

/-- The text after applying the addressed rules in order, reading every
rule from the snapshot `st0`. -/
def applyPure (sub : SubOracle) (stage : LC) (mod : Option LC) (st0 : DRM)
    (addrs : List (RSrc × Nat)) (t : LC) : LC :=
  addrs.foldl (applyPureStep sub stage mod st0) t

theorem readRule_writeRule (st : DRM) (stage : LC) (mod : Option LC)
    (a : RSrc × Nat) (rnew : Rule) (b : RSrc × Nat) :
    readRule (writeRule st stage mod a rnew) stage mod b
      = if b = a ∧ (readRule st stage mod a).isSome then some rnew
        else readRule st stage mod b := by
  obtain ⟨src, i⟩ := a
  obtain ⟨src', j⟩ := b
  simp only [readRule, stageList_writeRule]
  by_cases hs : src' = src
  · subst hs
    simp only [if_true, reduceIte]
    by_cases hij : j = i
    · subst hij
      by_cases hlt : j < (stageList st stage mod src').length
      · have h1 : (stageList st stage mod src')[j]?.isSome := by
          simp [List.getElem?_eq_getElem hlt]
        simp [List.getElem?_set_self, hlt, h1]
      · have h1 : (stageList st stage mod src')[j]? = none := by
          simp only [List.getElem?_eq_none_iff]; omega
        simp only [List.getElem?_set_self, hlt, h1]
        have h2 : ((stageList st stage mod src').set j rnew)[j]? = none := by
          simp only [List.getElem?_eq_none_iff, List.length_set]; omega
        simp [h2, h1]
    · have : ((src', j) = (src', i)) = False := by
        simp [Prod.ext_iff]; exact fun h => absurd h hij
      simp only [this, false_and, if_false]
      rw [List.getElem?_set_ne (fun h => hij h.symm)]
  · have : ((src', j) = (src, i)) = False := by
      simp [Prod.ext_iff]; intro h; exact absurd h hs
    simp [this, hs]

/-- Reads through the `patRep` lens are invariant under the writes
`apply_rules` performs (they only touch `usage_count`/`success_rate`). -/
theorem readRule_writeRule_patRep (st : DRM) (stage : LC) (mod : Option LC)
    (a : RSrc × Nat) (r rnew : Rule)
    (hread : readRule st stage mod a = some r) (hpr : patRep rnew = patRep r)
    (b : RSrc × Nat) :
    (readRule (writeRule st stage mod a rnew) stage mod b).map patRep
      = (readRule st stage mod b).map patRep := by
  rw [readRule_writeRule]
  by_cases hb : b = a ∧ (readRule st stage mod a).isSome
  · obtain ⟨hb1, hb2⟩ := hb
    subst hb1
    rw [if_pos ⟨rfl, hb2⟩, hread]
    simp [hpr]
  · simp [hb]

/-- Two states indistinguishable through `patRep` produce the same pure
text scan. -/
theorem applyPure_congr (sub : SubOracle) (stage : LC) (mod : Option LC) :
    ∀ (addrs : List (RSrc × Nat)) (st1 st2 : DRM) (t : LC),
      (∀ b, (readRule st1 stage mod b).map patRep = (readRule st2 stage mod b).map patRep) →
      applyPure sub stage mod st1 addrs t = applyPure sub stage mod st2 addrs t := by
  intro addrs
  induction addrs with
  | nil => intro _ _ _ _; rfl
  | cons a rest ih =>
    intro st1 st2 t hinv
    simp only [applyPure, List.foldl_cons]
    have hstep : applyPureStep sub stage mod st1 t a = applyPureStep sub stage mod st2 t a := by
      have hmap := hinv a
      simp only [applyPureStep]
      cases h1 : readRule st1 stage mod a with
      | none =>
        rw [h1] at hmap
        cases h2 : readRule st2 stage mod a with
        | none => rfl
        | some r2 => rw [h2] at hmap; exact absurd hmap (by simp)
      | some r1 =>
        rw [h1] at hmap
        cases h2 : readRule st2 stage mod a with
        | none => rw [h2] at hmap; exact absurd hmap (by simp)
        | some r2 =>
          rw [h2] at hmap
          simp only [Option.map_some', Option.some.injEq] at hmap
          have hp : r1.pattern = r2.pattern := congrArg Prod.fst hmap
          have hr : r1.replacement = r2.replacement := congrArg Prod.snd hmap
          simp [hp, hr]
    rw [hstep]
    exact ih st1 st2 _ hinv

/-- The mutations performed along the scan never change what later steps
read through `patRep`, so the produced text equals the pure scan on the
initial snapshot. -/
theorem apply_rules_go_fst (sub : SubOracle) (stage : LC) (mod : Option LC) :
    ∀ (addrs : List (RSrc × Nat)) (st st0 : DRM) (t : LC),
      (∀ b, (readRule st stage mod b).map patRep = (readRule st0 stage mod b).map patRep) →
      (apply_rules_go sub stage mod addrs st t).1 = applyPure sub stage mod st0 addrs t := by
  intro addrs
  induction addrs with
  | nil => intro _ _ _ _; rfl
  | cons a rest ih =>
    intro st st0 t hinv
    have ha := hinv a
    cases h1 : readRule st stage mod a with
    | none =>
      have h0 : readRule st0 stage mod a = none := by
        rw [h1] at ha
        cases h2 : readRule st0 stage mod a with
        | none => rfl
        | some r2 => rw [h2] at ha; exact absurd ha (by simp)
      have hL : apply_rules_go sub stage mod (a :: rest) st t
          = apply_rules_go sub stage mod rest st t := by
        simp only [apply_rules_go, h1]
      have hR : applyPure sub stage mod st0 (a :: rest) t
          = applyPure sub stage mod st0 rest t := by
        simp only [applyPure, List.foldl_cons, applyPureStep, h0]
      rw [hL, hR]
      exact ih st st0 t hinv
    | some r =>
      rw [h1] at ha
      cases h0 : readRule st0 stage mod a with
      | none => rw [h0] at ha; exact absurd ha (by simp)
      | some r0 =>
        rw [h0] at ha
        simp only [Option.map_some', Option.some.injEq] at ha
        have hp : r.pattern = r0.pattern := congrArg Prod.fst ha
        have hr : r.replacement = r0.replacement := congrArg Prod.snd ha
        have hR : applyPure sub stage mod st0 (a :: rest) t
            = applyPure sub stage mod st0 rest ((sub r.pattern r.replacement t).getD t) := by
          simp only [applyPure, List.foldl_cons, applyPureStep, h0, hp, hr]
        rw [hR]
        cases hsub : sub r.pattern r.replacement t with
        | none =>
          have hL : apply_rules_go sub stage mod (a :: rest) st t
              = apply_rules_go sub stage mod rest
                  (writeRule st stage mod a { r with success_rate := r.success_rate * (9/10) }) t := by
            simp only [apply_rules_go, h1, hsub]
          rw [hL]
          simp only [Option.getD_none]
          refine ih _ st0 t (fun b => ?_)
          rw [readRule_writeRule_patRep st stage mod a r _ h1 (by simp [patRep]) b]
          exact hinv b
        | some t2 =>
          simp only [Option.getD_some]
          by_cases hch : t2 = t
          · have hL : apply_rules_go sub stage mod (a :: rest) st t
                = apply_rules_go sub stage mod rest st t := by
              simp only [apply_rules_go, h1, hsub, hch, if_true, reduceIte]
            rw [hL, hch]
            exact ih st st0 t hinv
          · have hL : apply_rules_go sub stage mod (a :: rest) st t
                = apply_rules_go sub stage mod rest
                    (writeRule st stage mod a { r with usage_count := r.usage_count + 1 }) t2 := by
              simp only [apply_rules_go, h1, hsub, hch, if_false, reduceIte]
            rw [hL]
            refine ih _ st0 t2 (fun b => ?_)
            rw [readRule_writeRule_patRep st stage mod a r _ h1 (by simp [patRep]) b]
            exact hinv b

/-- Every rule field except the two statistics counters mutated by
`apply_rules`. -/
def frozenFields (r : Rule) :
    LC × LC × LC × LC × LC × ℚ × Option LC × Option LC :=
  (r.name, r.pattern, r.replacement, r.description, r.stage, r.confidence,
   r.created_at, r.mod_specific)

theorem list_set_getElem?_eq {α : Type} : ∀ (l : List α) (i : Nat) (a : α),
    l[i]? = some a → l.set i a = l := by
  intro l
  induction l with
  | nil => intro i a h; simp at h
  | cons x xs ih =>
    intro i a h
    cases i with
    | zero => simp at h; simp [List.set, h]
    | succ n =>
      simp only [List.getElem?_cons_succ] at h
      simp [List.set, ih n a h]

theorem map_set_frozen (l : List Rule) (i : Nat) (rnew r : Rule)
    (hget : l[i]? = some r) (hfr : frozenFields rnew = frozenFields r) :
    (l.set i rnew).map frozenFields = l.map frozenFields := by
  rw [List.map_set]
  apply list_set_getElem?_eq
  rw [List.getElem?_map, hget, hfr]
  rfl

theorem agetMod_setModRule_ne (m : List (LC × RMap)) (k k' : LC) (stage : LC) (i : Nat) (r : Rule)
    (h : k' ≠ k) : agetMod (setModRule m k stage i r) k' = agetMod m k' := by
  induction m with
  | nil => simp [setModRule]
  | cons kv rest ih =>
    obtain ⟨k0, v0⟩ := kv
    by_cases h0 : k0 = k
    · subst h0
      simp [setModRule, agetMod, Ne.symm h]
    · by_cases h1 : k0 = k'
      · simp [setModRule, agetMod, h0, h1, h]
      · simp [setModRule, agetMod, h0, h1, ih]

/-- The complete frame of one `apply_rules` write: through the
`frozenFields` lens, every partition map of the state is unchanged
(provided the written rule agrees with the displaced one on those
fields, which the `usage_count`/`success_rate` updates do). -/
theorem writeRule_frozen (st : DRM) (stage : LC) (mod : Option LC) (a : RSrc × Nat)
    (rnew r : Rule) (hread : readRule st stage mod a = some r)
    (hfr : frozenFields rnew = frozenFields r) :
    (∀ k, (mget (writeRule st stage mod a rnew).base_rules k).map frozenFields
        = (mget st.base_rules k).map frozenFields)
    ∧ (∀ k, (mget (writeRule st stage mod a rnew).learned_rules k).map frozenFields
        = (mget st.learned_rules k).map frozenFields)
    ∧ (∀ mk k, (mget (agetMod (writeRule st stage mod a rnew).mod_specific_rules mk) k).map frozenFields
        = (mget (agetMod st.mod_specific_rules mk) k).map frozenFields)
    ∧ (writeRule st stage mod a rnew).learning_candidates = st.learning_candidates
    ∧ (writeRule st stage mod a rnew).learning_config = st.learning_config := by
  obtain ⟨src, i⟩ := a
  cases src with
  | base =>
    refine ⟨fun k => ?_, fun k => rfl, fun mk k => rfl, rfl, rfl⟩
    simp only [writeRule]
    by_cases hk : k = stage
    · subst hk
      rw [mget_msetR_self]
      exact map_set_frozen _ _ _ _ hread hfr
    · rw [mget_msetR_ne _ _ _ _ hk]
  | learned =>
    refine ⟨fun k => rfl, fun k => ?_, fun mk k => rfl, rfl, rfl⟩
    simp only [writeRule]
    by_cases hk : k = stage
    · subst hk
      rw [mget_msetR_self]
      exact map_set_frozen _ _ _ _ hread hfr
    · rw [mget_msetR_ne _ _ _ _ hk]
  | modsp =>
    cases mod with
    | none => exact ⟨fun _ => rfl, fun _ => rfl, fun _ _ => rfl, rfl, rfl⟩
    | some m =>
      by_cases hc : m ≠ [] ∧ amemMod st.mod_specific_rules m
      · have hwr : writeRule st stage (some m) (RSrc.modsp, i) rnew
            = { st with mod_specific_rules := setModRule st.mod_specific_rules m stage i rnew } := by
          simp [writeRule, hc]
        rw [hwr]
        refine ⟨fun k => rfl, fun k => rfl, fun mk k => ?_, rfl, rfl⟩
        simp only
        by_cases hmk : mk = m
        · subst hmk
          rw [agetMod_setModRule_self _ _ _ _ _ hc.2]
          by_cases hk : k = stage
          · subst hk
            rw [mget_msetR_self]
            refine map_set_frozen _ _ _ _ ?_ hfr
            have := hread
            simp only [readRule, stageList, hc, if_true, and_true, reduceIte] at this
            simpa [hc.1, hc.2] using this
          · rw [mget_msetR_ne _ _ _ _ hk]
        · rw [agetMod_setModRule_ne _ _ _ _ _ _ hmk]
      · have hwr : writeRule st stage (some m) (RSrc.modsp, i) rnew = st := by
          simp [writeRule, hc]
        rw [hwr]
        exact ⟨fun _ => rfl, fun _ => rfl, fun _ _ => rfl, rfl, rfl⟩

/-- The global frame of the whole scan: only `usage_count` and
`success_rate` ever change, in any partition, any stage, any mod slot;
candidates and configuration are untouched. -/
theorem apply_rules_go_frozen (sub : SubOracle) (stage : LC) (mod : Option LC) :
    ∀ (addrs : List (RSrc × Nat)) (st : DRM) (t : LC),
      (∀ k, (mget (apply_rules_go sub stage mod addrs st t).2.base_rules k).map frozenFields
          = (mget st.base_rules k).map frozenFields)
      ∧ (∀ k, (mget (apply_rules_go sub stage mod addrs st t).2.learned_rules k).map frozenFields
          = (mget st.learned_rules k).map frozenFields)
      ∧ (∀ mk k, (mget (agetMod (apply_rules_go sub stage mod addrs st t).2.mod_specific_rules mk) k).map frozenFields
          = (mget (agetMod st.mod_specific_rules mk) k).map frozenFields)
      ∧ (apply_rules_go sub stage mod addrs st t).2.learning_candidates = st.learning_candidates
      ∧ (apply_rules_go sub stage mod addrs st t).2.learning_config = st.learning_config := by
  intro addrs
  induction addrs with
  | nil => intro st t; exact ⟨fun _ => rfl, fun _ => rfl, fun _ _ => rfl, rfl, rfl⟩
  | cons a rest ih =>
    intro st t
    cases h1 : readRule st stage mod a with
    | none =>
      have hL : apply_rules_go sub stage mod (a :: rest) st t
          = apply_rules_go sub stage mod rest st t := by
        simp only [apply_rules_go, h1]
      rw [hL]
      exact ih st t
    | some r =>
      cases hsub : sub r.pattern r.replacement t with
      | none =>
        have hL : apply_rules_go sub stage mod (a :: rest) st t
            = apply_rules_go sub stage mod rest
                (writeRule st stage mod a { r with success_rate := r.success_rate * (9/10) }) t := by
          simp only [apply_rules_go, h1, hsub]
        rw [hL]
        have hw := writeRule_frozen st stage mod a
          { r with success_rate := r.success_rate * (9/10) } r h1 (by simp [frozenFields])
        have hi := ih (writeRule st stage mod a { r with success_rate := r.success_rate * (9/10) }) t
        exact ⟨fun k => (hi.1 k).trans (hw.1 k),
          fun k => (hi.2.1 k).trans (hw.2.1 k),
          fun mk k => (hi.2.2.1 mk k).trans (hw.2.2.1 mk k),
          hi.2.2.2.1.trans hw.2.2.2.1, hi.2.2.2.2.trans hw.2.2.2.2⟩
      | some t2 =>
        by_cases hch : t2 = t
        · have hL : apply_rules_go sub stage mod (a :: rest) st t
              = apply_rules_go sub stage mod rest st t := by
            simp only [apply_rules_go, h1, hsub, hch, if_true, reduceIte]
          rw [hL]
          exact ih st t
        · have hL : apply_rules_go sub stage mod (a :: rest) st t
              = apply_rules_go sub stage mod rest
                  (writeRule st stage mod a { r with usage_count := r.usage_count + 1 }) t2 := by
            simp only [apply_rules_go, h1, hsub, hch, if_false, reduceIte]
          rw [hL]
          have hw := writeRule_frozen st stage mod a
            { r with usage_count := r.usage_count + 1 } r h1 (by simp [frozenFields])
          have hi := ih (writeRule st stage mod a { r with usage_count := r.usage_count + 1 }) t2
          exact ⟨fun k => (hi.1 k).trans (hw.1 k),
            fun k => (hi.2.1 k).trans (hw.2.1 k),
            fun mk k => (hi.2.2.1 mk k).trans (hw.2.2.1 mk k),
            hi.2.2.2.1.trans hw.2.2.2.1, hi.2.2.2.2.trans hw.2.2.2.2⟩

/-- An address the scan never visits keeps its rule object untouched. -/
theorem apply_rules_go_read_notin (sub : SubOracle) (stage : LC) (mod : Option LC) :
    ∀ (addrs : List (RSrc × Nat)) (st : DRM) (t : LC) (b : RSrc × Nat), b ∉ addrs →
      readRule (apply_rules_go sub stage mod addrs st t).2 stage mod b
        = readRule st stage mod b := by
  intro addrs
  induction addrs with
  | nil => intro st t b _; rfl
  | cons a rest ih =>
    intro st t b hb
    have hba : b ≠ a := fun h => hb (h ▸ List.mem_cons_self a rest)
    have hbr : b ∉ rest := fun h => hb (List.mem_cons_of_mem a h)
    cases h1 : readRule st stage mod a with
    | none =>
      have hL : apply_rules_go sub stage mod (a :: rest) st t
          = apply_rules_go sub stage mod rest st t := by
        simp only [apply_rules_go, h1]
      rw [hL, ih st t b hbr]
    | some r =>
      cases hsub : sub r.pattern r.replacement t with
      | none =>
        have hL : apply_rules_go sub stage mod (a :: rest) st t
            = apply_rules_go sub stage mod rest
                (writeRule st stage mod a { r with success_rate := r.success_rate * (9/10) }) t := by
          simp only [apply_rules_go, h1, hsub]
        rw [hL, ih _ t b hbr, readRule_writeRule]
        simp [hba]
      | some t2 =>
        by_cases hch : t2 = t
        · have hL : apply_rules_go sub stage mod (a :: rest) st t
              = apply_rules_go sub stage mod rest st t := by
            simp only [apply_rules_go, h1, hsub, hch, if_true, reduceIte]
          rw [hL, ih st t b hbr]
        · have hL : apply_rules_go sub stage mod (a :: rest) st t
              = apply_rules_go sub stage mod rest
                  (writeRule st stage mod a { r with usage_count := r.usage_count + 1 }) t2 := by
            simp only [apply_rules_go, h1, hsub, hch, if_false, reduceIte]
          rw [hL, ih _ t2 b hbr, readRule_writeRule]
          simp [hba]

/-- Index of the first occurrence of an address. -/
def idxOfA : List (RSrc × Nat) → (RSrc × Nat) → Option Nat
  | [], _ => none
  | x :: xs, y => if x = y then some 0 else (idxOfA xs y).map (· + 1)

/-- What one visit does to a rule object, as a function of the text the
scan carries when that rule's turn arrives. -/
def c10step (sub : SubOracle) (tb : LC) (r : Rule) : Rule :=
  match sub r.pattern r.replacement tb with
  | none => { r with success_rate := r.success_rate * (9/10) }
  | some t2 => if t2 = tb then r else { r with usage_count := r.usage_count + 1 }

/-- Pointwise characterisation of the scan's mutations: the rule object
at address `b` is unchanged if `b` is not visited, and otherwise receives
exactly the `c10step` update computed at the text of its turn (the pure
scan of the earlier addresses on the initial snapshot). -/
theorem apply_rules_go_read (sub : SubOracle) (stage : LC) (mod : Option LC) :
    ∀ (addrs : List (RSrc × Nat)), addrs.Nodup → ∀ (st : DRM) (t : LC) (b : RSrc × Nat),
      readRule (apply_rules_go sub stage mod addrs st t).2 stage mod b
        = match idxOfA addrs b with
          | none => readRule st stage mod b
          | some k => (readRule st stage mod b).map
              (c10step sub (applyPure sub stage mod st (addrs.take k) t)) := by
  intro addrs
  induction addrs with
  | nil => intro _ st t b; rfl
  | cons a rest ih =>
    intro hnd st t b
    have hna : a ∉ rest := (List.nodup_cons.mp hnd).1
    have hndr : rest.Nodup := (List.nodup_cons.mp hnd).2
    by_cases hba : b = a
    · subst hba
      have hidx : idxOfA (b :: rest) b = some 0 := by simp [idxOfA]
      rw [hidx]
      simp only [List.take_zero]
      cases h1 : readRule st stage mod b with
      | none =>
        have hL : apply_rules_go sub stage mod (b :: rest) st t
            = apply_rules_go sub stage mod rest st t := by
          simp only [apply_rules_go, h1]
        rw [hL, apply_rules_go_read_notin sub stage mod rest st t b hna, h1]
        rfl
      | some r =>
        cases hsub : sub r.pattern r.replacement t with
        | none =>
          have hL : apply_rules_go sub stage mod (b :: rest) st t
              = apply_rules_go sub stage mod rest
                  (writeRule st stage mod b { r with success_rate := r.success_rate * (9/10) }) t := by
            simp only [apply_rules_go, h1, hsub]
          rw [hL, apply_rules_go_read_notin sub stage mod rest _ t b hna, readRule_writeRule]
          have hs : (readRule st stage mod b).isSome := by simp [h1]
          simp only [hs, and_true, if_true, reduceIte, h1, Option.map_some']
          simp [c10step, applyPure, hsub]
        | some t2 =>
          by_cases hch : t2 = t
          · have hL : apply_rules_go sub stage mod (b :: rest) st t
                = apply_rules_go sub stage mod rest st t := by
              simp only [apply_rules_go, h1, hsub, hch, if_true, reduceIte]
            rw [hL, apply_rules_go_read_notin sub stage mod rest st t b hna, h1]
            simp [c10step, applyPure, hsub, hch]
          · have hL : apply_rules_go sub stage mod (b :: rest) st t
                = apply_rules_go sub stage mod rest
                    (writeRule st stage mod b { r with usage_count := r.usage_count + 1 }) t2 := by
              simp only [apply_rules_go, h1, hsub, hch, if_false, reduceIte]
            rw [hL, apply_rules_go_read_notin sub stage mod rest _ t2 b hna, readRule_writeRule]
            have hs : (readRule st stage mod b).isSome := by simp [h1]
            simp only [hs, and_true, if_true, reduceIte, h1, Option.map_some']
            simp [c10step, applyPure, hsub, hch]
    · have hidx : idxOfA (a :: rest) b = (idxOfA rest b).map (· + 1) := by
        simp [idxOfA, Ne.symm hba]
      rw [hidx]
      cases h1 : readRule st stage mod a with
      | none =>
        have hL : apply_rules_go sub stage mod (a :: rest) st t
            = apply_rules_go sub stage mod rest st t := by
          simp only [apply_rules_go, h1]
        rw [hL, ih hndr st t b]
        cases hk : idxOfA rest b with
        | none => rfl
        | some k =>
          simp only [Option.map_some']
          have htake : applyPure sub stage mod st ((a :: rest).take (k + 1)) t
              = applyPure sub stage mod st (rest.take k) t := by
            simp [List.take_succ_cons, applyPure, applyPureStep, h1]
          rw [htake]
      | some r =>
        have hstep : ∀ rnew,
            frozenFields rnew = frozenFields r →
            readRule (apply_rules_go sub stage mod rest (writeRule st stage mod a rnew)
                ((sub r.pattern r.replacement t).getD t)).2 stage mod b
              = match idxOfA rest b with
                | none => readRule st stage mod b
                | some k => (readRule st stage mod b).map
                    (c10step sub (applyPure sub stage mod st ((a :: rest).take (k + 1)) t)) := by
          intro rnew hfr
          have hprw : ∀ b', (readRule (writeRule st stage mod a rnew) stage mod b').map patRep
              = (readRule st stage mod b').map patRep := by
            intro b'
            exact readRule_writeRule_patRep st stage mod a r rnew h1
              (by simp [patRep, frozenFields] at hfr ⊢; exact ⟨hfr.2.1, hfr.2.2.1⟩) b'
          rw [ih hndr (writeRule st stage mod a rnew) ((sub r.pattern r.replacement t).getD t) b]
          have hrb : readRule (writeRule st stage mod a rnew) stage mod b
              = readRule st stage mod b := by
            rw [readRule_writeRule]
            simp [hba]
          cases hk : idxOfA rest b with
          | none => simp only [hrb]
          | some k =>
            simp only [Option.map_some', hrb]
            have htake : applyPure sub stage mod (writeRule st stage mod a rnew) (rest.take k)
                ((sub r.pattern r.replacement t).getD t)
                = applyPure sub stage mod st ((a :: rest).take (k + 1)) t := by
              rw [applyPure_congr sub stage mod (rest.take k) _ st _ hprw]
              simp [List.take_succ_cons, applyPure, applyPureStep, h1]
            rw [htake]
        cases hsub : sub r.pattern r.replacement t with
        | none =>
          have hL : apply_rules_go sub stage mod (a :: rest) st t
              = apply_rules_go sub stage mod rest
                  (writeRule st stage mod a { r with success_rate := r.success_rate * (9/10) }) t := by
            simp only [apply_rules_go, h1, hsub]
          rw [hL]
          have := hstep { r with success_rate := r.success_rate * (9/10) } (by simp [frozenFields])
          rw [hsub] at this
          simp only [Option.getD_none] at this
          rw [this]
          cases idxOfA rest b <;> rfl
        | some t2 =>
          by_cases hch : t2 = t
          · have hL : apply_rules_go sub stage mod (a :: rest) st t
                = apply_rules_go sub stage mod rest st t := by
              simp only [apply_rules_go, h1, hsub, hch, if_true, reduceIte]
            rw [hL, ih hndr st t b]
            cases hk : idxOfA rest b with
            | none => rfl
            | some k =>
              simp only [Option.map_some']
              have htake : applyPure sub stage mod st ((a :: rest).take (k + 1)) t
                  = applyPure sub stage mod st (rest.take k) t := by
                simp [List.take_succ_cons, applyPure, applyPureStep, h1, hsub, hch]
              rw [htake]
          · have hL : apply_rules_go sub stage mod (a :: rest) st t
                = apply_rules_go sub stage mod rest
                    (writeRule st stage mod a { r with usage_count := r.usage_count + 1 }) t2 := by
              simp only [apply_rules_go, h1, hsub, hch, if_false, reduceIte]
            rw [hL]
            have := hstep { r with usage_count := r.usage_count + 1 } (by simp [frozenFields])
            rw [hsub] at this
            simp only [Option.getD_some] at this
            rw [this]
            cases idxOfA rest b <;> rfl

theorem nodup_applicableAddrs (st : DRM) (stage : LC) (mod : Option LC) :
    (applicableAddrs st stage mod).Nodup := by
  have hinj : ∀ s : RSrc, Function.Injective (fun i : Nat => (s, i)) := by
    intro s a b h
    simpa using congrArg Prod.snd h
  have h1 : ((List.range (stageList st stage mod .base).length).map (fun i => (RSrc.base, i))).Nodup :=
    List.Nodup.map (hinj .base) (List.nodup_range _)
  have h2 : ((List.range (stageList st stage mod .learned).length).map (fun i => (RSrc.learned, i))).Nodup :=
    List.Nodup.map (hinj .learned) (List.nodup_range _)
  have h3 : ((List.range (stageList st stage mod .modsp).length).map (fun i => (RSrc.modsp, i))).Nodup :=
    List.Nodup.map (hinj .modsp) (List.nodup_range _)
  have h23 : (((List.range (stageList st stage mod .learned).length).map (fun i => (RSrc.learned, i)))
      ++ ((List.range (stageList st stage mod .modsp).length).map (fun i => (RSrc.modsp, i)))).Nodup := by
    refine List.Nodup.append h2 h3 ?_
    intro x hx hy
    simp only [List.mem_map, List.mem_range] at hx hy
    obtain ⟨i, _, hi⟩ := hx
    obtain ⟨j, _, hj⟩ := hy
    rw [← hi] at hj
    exact RSrc.noConfusion (congrArg Prod.fst hj)
  have henum : (((List.range (stageList st stage mod .base).length).map (fun i => (RSrc.base, i)))
      ++ (((List.range (stageList st stage mod .learned).length).map (fun i => (RSrc.learned, i)))
        ++ ((List.range (stageList st stage mod .modsp).length).map (fun i => (RSrc.modsp, i))))).Nodup := by
    refine List.Nodup.append h1 h23 ?_
    intro x hx hy
    simp only [List.mem_map, List.mem_range, List.mem_append] at hx hy
    obtain ⟨i, _, hi⟩ := hx
    rcases hy with ⟨j, _, hj⟩ | ⟨j, _, hj⟩ <;> rw [← hi] at hj <;>
      exact RSrc.noConfusion (congrArg Prod.fst hj)
  have hperm := List.perm_insertionSort (addrOrder st stage mod)
    (((List.range (stageList st stage mod .base).length).map (fun i => (RSrc.base, i)))
      ++ (((List.range (stageList st stage mod .learned).length).map (fun i => (RSrc.learned, i)))
        ++ ((List.range (stageList st stage mod .modsp).length).map (fun i => (RSrc.modsp, i)))))
  have := hperm.nodup_iff.mpr henum
  simpa [applicableAddrs, List.append_assoc] using this

/-! ## Claim C6 — a rule whose regex fails is skipped, penalised, kept -/

/-- C6.  If the regex engine raises on the rule object at address `a`
(the head of the remaining effective list) for the current text, that
rule is skipped without aborting the stage: the final text is exactly the
text produced by the remaining rules on the carried (unchanged) text; the
failing rule stays in the rule set (every partition keeps its length for
every stage and mod) with only its `success_rate` multiplied by `0.9`. -/
theorem C6_regex_error_skips_penalises_keeps
    (sub : SubOracle) (stage : LC) (mod : Option LC) (a : RSrc × Nat)
    (rest : List (RSrc × Nat)) (st : DRM) (t : LC) (r : Rule)
    (hread : readRule st stage mod a = some r)
    (hfail : sub r.pattern r.replacement t = none)
    (hnotin : a ∉ rest) :
    (apply_rules_go sub stage mod (a :: rest) st t).1
        = (apply_rules_go sub stage mod rest st t).1
      ∧ readRule (apply_rules_go sub stage mod (a :: rest) st t).2 stage mod a
        = some { r with success_rate := r.success_rate * (9/10) }
      ∧ (∀ k, (mget (apply_rules_go sub stage mod (a :: rest) st t).2.base_rules k).length
          = (mget st.base_rules k).length)
      ∧ (∀ k, (mget (apply_rules_go sub stage mod (a :: rest) st t).2.learned_rules k).length
          = (mget st.learned_rules k).length)
      ∧ (∀ mk k, (mget (agetMod (apply_rules_go sub stage mod (a :: rest) st t).2.mod_specific_rules mk) k).length
          = (mget (agetMod st.mod_specific_rules mk) k).length) := by
  have hL : apply_rules_go sub stage mod (a :: rest) st t
      = apply_rules_go sub stage mod rest
          (writeRule st stage mod a { r with success_rate := r.success_rate * (9/10) }) t := by
    simp only [apply_rules_go, hread, hfail]
  have hfr := apply_rules_go_frozen sub stage mod (a :: rest) st t
  refine ⟨?_, ?_, ?_, ?_, ?_⟩
  · rw [hL]
    rw [apply_rules_go_fst sub stage mod rest _ st t (fun b =>
      readRule_writeRule_patRep st stage mod a r _ hread (by simp [patRep]) b)]
    rw [apply_rules_go_fst sub stage mod rest st st t (fun b => rfl)]
  · rw [hL, apply_rules_go_read_notin sub stage mod rest _ t a hnotin, readRule_writeRule]
    simp [hread]
  · intro k
    have := congrArg List.length (hfr.1 k)
    simpa using this
  · intro k
    have := congrArg List.length (hfr.2.1 k)
    simpa using this
  · intro mk k
    have := congrArg List.length (hfr.2.2.1 mk k)
    simpa using this

/-- A minimal concrete rule used by witnesses. -/
def wRule : Rule :=
  { name := s2l "r0", pattern := s2l "x", replacement := s2l "y",
    description := s2l "d", stage := s2l "post_translation", confidence := 1,
    usage_count := 0, success_rate := 1, created_at := none, mod_specific := none }

def wDRM : DRM :=
  { base_rules := [(s2l "post_translation", [wRule])], learned_rules := [],
    mod_specific_rules := [], learning_candidates := [],
    learning_config := defaultLearningConfig }

/-- Witness for C6 at a concrete one-rule state with an engine that
raises on every pattern. -/
theorem C6_witness :
    (apply_rules_go (fun _ _ _ => none) (s2l "post_translation") none
          [(RSrc.base, 0)] wDRM (s2l "x")).1
        = (apply_rules_go (fun _ _ _ => none) (s2l "post_translation") none
          [] wDRM (s2l "x")).1
      ∧ readRule (apply_rules_go (fun _ _ _ => none) (s2l "post_translation") none
          [(RSrc.base, 0)] wDRM (s2l "x")).2 (s2l "post_translation") none (RSrc.base, 0)
        = some { wRule with success_rate := wRule.success_rate * (9/10) } := by
  have h := C6_regex_error_skips_penalises_keeps (fun _ _ _ => none)
    (s2l "post_translation") none (RSrc.base, 0) [] wDRM (s2l "x") wRule rfl rfl
    (by simp)
  exact ⟨h.1, h.2.1⟩

/-! ## Claim C10 — `apply_rules` mutates only the statistics counters -/

/-- The `c10step` update touches nothing but `usage_count` and
`success_rate`. -/
theorem c10step_frozen (sub : SubOracle) (tb : LC) (r : Rule) :
    frozenFields (c10step sub tb r) = frozenFields r := by
  unfold c10step
  cases sub r.pattern r.replacement tb with
  | none => simp [frozenFields]
  | some t2 =>
    by_cases h : t2 = tb
    · simp [h, frozenFields]
    · simp [h, frozenFields]

/-- C10.  Applying rules never adds, removes or reorders rules inside the
stored base, learned or mod-specific partitions: through the lens of all
fields except `usage_count` and `success_rate`, every partition map is
unchanged, and the learning candidates and configuration are untouched.
Pointwise, the rule object at an address is unchanged when the merged
sorted visit order does not contain it, and otherwise receives exactly
the `c10step` update at the text of its turn: `success_rate * 0.9` when
the engine raises, `usage_count + 1` exactly when the substitution
changed the then-current text, and the identity otherwise.  The produced
text is the pure scan of the visit order on the initial snapshot. -/
theorem C10_apply_rules_frame_and_counters
    (sub : SubOracle) (st : DRM) (stage : LC) (mod : Option LC) (text : LC) :
    (∀ k, (mget (apply_rules sub st stage mod text).2.base_rules k).map frozenFields
        = (mget st.base_rules k).map frozenFields)
    ∧ (∀ k, (mget (apply_rules sub st stage mod text).2.learned_rules k).map frozenFields
        = (mget st.learned_rules k).map frozenFields)
    ∧ (∀ mk k, (mget (agetMod (apply_rules sub st stage mod text).2.mod_specific_rules mk) k).map frozenFields
        = (mget (agetMod st.mod_specific_rules mk) k).map frozenFields)
    ∧ (apply_rules sub st stage mod text).2.learning_candidates = st.learning_candidates
    ∧ (apply_rules sub st stage mod text).2.learning_config = st.learning_config
    ∧ (∀ b, readRule (apply_rules sub st stage mod text).2 stage mod b
        = if text = [] then readRule st stage mod b
          else match idxOfA (applicableAddrs st stage mod) b with
            | none => readRule st stage mod b
            | some k => (readRule st stage mod b).map
                (c10step sub (applyPure sub stage mod st ((applicableAddrs st stage mod).take k) text)))
    ∧ ((apply_rules sub st stage mod text).1
        = if text = [] then text
          else applyPure sub stage mod st (applicableAddrs st stage mod) text)
    ∧ (∀ tb r, frozenFields (c10step sub tb r) = frozenFields r) := by
  by_cases h0 : text = []
  · subst h0
    simp [apply_rules, c10step_frozen]
  · have hA : apply_rules sub st stage mod text
        = apply_rules_go sub stage mod (applicableAddrs st stage mod) st text := by
      simp [apply_rules, h0]
    have hfr := apply_rules_go_frozen sub stage mod (applicableAddrs st stage mod) st text
    refine ⟨?_, ?_, ?_, ?_, ?_, ?_, ?_, fun tb r => c10step_frozen sub tb r⟩
    · intro k; rw [hA]; exact hfr.1 k
    · intro k; rw [hA]; exact hfr.2.1 k
    · intro mk k; rw [hA]; exact hfr.2.2.1 mk k
    · rw [hA]; exact hfr.2.2.2.1
    · rw [hA]; exact hfr.2.2.2.2
    · intro b
      rw [hA, apply_rules_go_read sub stage mod _ (nodup_applicableAddrs st stage mod) st text b]
      simp [h0]
    · rw [hA, apply_rules_go_fst sub stage mod _ st st text (fun b => rfl)]
      simp [h0]

/-! ## Claim C5 — no-op observations

`DynamicRulesManager.learn_from_llm_improvement` has *no* rejection test
for `original == improved` or an empty improvement (that guard exists
only in the glossary manager's learner): with learning enabled the
observation is always accepted (`True`), a duplicate bumps an existing
candidate, and a fresh no-op observation appends a candidate — merely one
that carries no detected pattern, so it can never be promoted. -/

/-- `SequenceMatcher(None, a, b).get_opcodes()` as difflib actually
behaves on equal inputs: a single `equal` opcode covering both strings
(used only at the counterexample's inputs). -/
def eqOpOracle : OpOracle := fun a b =>
  if a = b then [⟨DTag.equal, 0, a.length, 0, b.length⟩] else []

/-- The candidate created for the no-op observation below. -/
def noopCand : LearningCandidate :=
  { source_text := s2l "src", original_translation := s2l "same",
    improved_translation := s2l "same", improvement_source := s2l "llm",
    confidence := 0, frequency := 1, detected_pattern := none,
    suggested_replacement := none }

/-- C5, counterexample: a no-op observation (`baseline == refined`) on an
empty candidate store with learning enabled is *accepted* — the call
returns `True` and a new learning candidate is appended — contradicting
the claimed rejection. -/
theorem C5_cex_noop_observation_is_accepted :
    (learn_from_llm_improvement eqOpOracle wDRM (s2l "src") (s2l "same") (s2l "same")
        0 (s2l "ts")).1 = true
      ∧ (learn_from_llm_improvement eqOpOracle wDRM (s2l "src") (s2l "same") (s2l "same")
        0 (s2l "ts")).2.learning_candidates = [noopCand] := by
  have hdet : detect_improvement_pattern eqOpOracle (s2l "same") (s2l "same") = (none, none) := by
    decide
  have hen : defaultLearningConfig.enabled = true := rfl
  have hth : ¬ (defaultLearningConfig.confidence_threshold ≤ (0 : ℚ)) := by
    norm_num [defaultLearningConfig]
  constructor <;>
    simp [learn_from_llm_improvement, hen, wDRM, bumpDup, hdet, hth, noopCand]

theorem mem_removeFirst (l : List LearningCandidate) (y c : LearningCandidate)
    (hc : c ∈ l) (hne : c ≠ y) : c ∈ removeFirst l y := by
  induction l with
  | nil => simp at hc
  | cons x xs ih =>
    by_cases hxy : x = y
    · simp only [removeFirst, hxy, if_true, reduceIte]
      rcases List.mem_cons.mp hc with h | h
      · exact absurd (h.trans hxy) hne
      · exact h
    · simp only [removeFirst, hxy, if_false, reduceIte]
      rcases List.mem_cons.mp hc with h | h
      · exact h ▸ List.mem_cons_self x _
      · exact List.mem_cons_of_mem x (ih h)

theorem mem_removeAllCands (l : List LearningCandidate) (cands : List LearningCandidate)
    (c : LearningCandidate) (hc : c ∈ l) (hne : ∀ y ∈ cands, c ≠ y) :
    c ∈ removeAllCands l cands := by
  induction cands generalizing l with
  | nil => exact hc
  | cons y ys ih =>
    simp only [removeAllCands, List.foldl_cons]
    by_cases hm : y ∈ l
    · simp only [hm, if_true, reduceIte]
      exact ih (removeFirst l y) (mem_removeFirst l y c hc (hne y (by simp)))
        (fun z hz => hne z (by simp [hz]))
    · simp only [hm, if_false, reduceIte]
      exact ih l hc (fun z hz => hne z (by simp [hz]))

theorem groupAdd_members (gs : List (LC × List LearningCandidate)) (p : LC)
    (c : LearningCandidate)
    (h : ∀ pr ∈ gs, ∀ d ∈ pr.2, d.detected_pattern ≠ none)
    (hc : c.detected_pattern ≠ none) :
    ∀ pr ∈ groupAdd gs p c, ∀ d ∈ pr.2, d.detected_pattern ≠ none := by
  induction gs with
  | nil =>
    intro pr hpr d hd
    simp only [groupAdd, List.mem_singleton] at hpr
    subst hpr
    simp only [List.mem_singleton] at hd
    exact hd ▸ hc
  | cons g rest ih =>
    obtain ⟨p', cs⟩ := g
    intro pr hpr d hd
    by_cases hp : p' = p
    · simp only [groupAdd, hp, if_true, reduceIte] at hpr
      rcases List.mem_cons.mp hpr with h1 | h1
      · subst h1
        simp only [List.mem_append, List.mem_singleton] at hd
        rcases hd with hd | hd
        · exact h (p', cs) (List.mem_cons_self _ _) d hd
        · exact hd ▸ hc
      · exact h pr (List.mem_cons_of_mem _ h1) d hd
    · simp only [groupAdd, hp, if_false, reduceIte] at hpr
      rcases List.mem_cons.mp hpr with h1 | h1
      · subst h1
        exact h (p', cs) (List.mem_cons_self _ _) d hd
      · exact ih (fun pr' hpr' => h pr' (List.mem_cons_of_mem _ hpr')) pr h1 d hd

theorem groupByPattern_members (cands : List LearningCandidate) :
    ∀ pr ∈ groupByPattern cands, ∀ d ∈ pr.2, d.detected_pattern ≠ none := by
  have main : ∀ (l : List LearningCandidate) (gs : List (LC × List LearningCandidate)),
      (∀ pr ∈ gs, ∀ d ∈ pr.2, d.detected_pattern ≠ none) →
      ∀ pr ∈ l.foldl (fun gs c =>
          match c.detected_pattern with
          | some p => groupAdd gs p c
          | none => gs) gs, ∀ d ∈ pr.2, d.detected_pattern ≠ none := by
    intro l
    induction l with
    | nil => intro gs h; exact h
    | cons c rest ih =>
      intro gs h
      simp only [List.foldl_cons]
      cases hd : c.detected_pattern with
      | none => exact ih gs h
      | some p => exact ih (groupAdd gs p c) (groupAdd_members gs p c h (by simp [hd]))
  exact main cands [] (by simp)

/-- A pending candidate with no detected pattern survives any promotion
round (`_create_learned_rule` only consumes members of pattern groups). -/
theorem unpatterned_survives_evaluate (st : DRM) (now : LC) (c : LearningCandidate)
    (hc : c ∈ st.learning_candidates) (hp : c.detected_pattern = none) :
    c ∈ (evaluate_learning_candidates st now).learning_candidates := by
  unfold evaluate_learning_candidates
  by_cases h0 : st.learning_candidates = []
  · simp [h0] at hc
  · simp only [h0, if_false, reduceIte]
    have hgroups := groupByPattern_members st.learning_candidates
    have main : ∀ (gs : List (LC × List LearningCandidate)) (st' : DRM),
        (∀ pr ∈ gs, ∀ d ∈ pr.2, d.detected_pattern ≠ none) →
        c ∈ st'.learning_candidates →
        c ∈ (gs.foldl (fun s g => evalGroup s g.1 g.2 now) st').learning_candidates := by
      intro gs
      induction gs with
      | nil => intro st' _ h; exact h
      | cons g rest ih =>
        intro st' hg hcm
        simp only [List.foldl_cons]
        refine ih _ (fun pr hpr => hg pr (List.mem_cons_of_mem _ hpr)) ?_
        unfold evalGroup
        by_cases hq : st'.learning_config.min_frequency_for_pattern ≤ sumFreq g.2
            ∧ st'.learning_config.confidence_threshold ≤ weightedAvg g.2
        · simp only [hq, if_true, reduceIte]
          cases hmc : mostCommon ((g.2.filterMap LearningCandidate.suggested_replacement).filter
              (fun r => r ≠ [])) with
          | none => exact hcm
          | some rep =>
            unfold create_learned_rule save_learned_rules cleanup_learned_rules
            simp only
            refine mem_removeAllCands _ _ c hcm ?_
            intro y hy hcy
            have := hg g (by simp) y hy
            rw [← hcy, hp] at this
            exact this rfl
        · simp only [hq, if_false, reduceIte]
          exact hcm
    exact main (groupByPattern st.learning_candidates) st hgroups hc

/-- C5 (amended).  With learning enabled, the dynamic rules manager does
*not* reject a no-op observation: `learn_from_llm_improvement` returns
`True`, and either an existing candidate with the same
`(source_text, baseline)` is updated (frequency bumped), or a fresh
candidate is created and remains pending — but for `baseline = refined`
(given that the diff collaborator reports no `replace` opcode on equal
inputs, as difflib does) the created candidate carries no detected
pattern, so it can never contribute to rule promotion. -/
theorem C5_noop_observation_accepted_but_unpatterned
    (opc : OpOracle) (st : DRM) (src orig impr : LC) (conf : ℚ) (now : LC)
    (hen : st.learning_config.enabled = true)
    (heq : orig = impr)
    (hop : ∀ op ∈ opc orig impr, op.tag ≠ DTag.replace) :
    (learn_from_llm_improvement opc st src orig impr conf now).1 = true
      ∧ detect_improvement_pattern opc orig impr = (none, none)
      ∧ (∀ cands', bumpDup st.learning_candidates src orig conf = some cands' →
          (learn_from_llm_improvement opc st src orig impr conf now).2
            = { st with learning_candidates := cands' })
      ∧ (bumpDup st.learning_candidates src orig conf = none →
          { source_text := src, original_translation := orig,
            improved_translation := impr, improvement_source := s2l "llm",
            confidence := conf, frequency := 1, detected_pattern := none,
            suggested_replacement := none }
            ∈ (learn_from_llm_improvement opc st src orig impr conf now).2.learning_candidates) := by
  subst heq
  have hdet : detect_improvement_pattern opc orig orig = (none, none) := by
    unfold detect_improvement_pattern
    have hfd : firstDiff (pySplit orig) (pySplit orig) = none := by
      induction pySplit orig with
      | nil => rfl
      | cons w ws ih => simp [firstDiff, ih]
    simp only [if_pos rfl, hfd]
    have ht2 : ∀ ops : List Opcode, (∀ op ∈ ops, op.tag ≠ DTag.replace) →
        detectTier2 orig orig ops = (none, none) := by
      intro ops
      induction ops with
      | nil => intro _; rfl
      | cons op rest ih =>
        intro h
        have := h op (by simp)
        simp only [detectTier2, this, false_and, if_false, reduceIte]
        exact ih (fun o ho => h o (by simp [ho]))
    exact ht2 (opc orig orig) hop
  refine ⟨?_, hdet, ?_, ?_⟩
  · unfold learn_from_llm_improvement
    simp only [hen, Bool.not_eq_true, Bool.true_eq_false, if_false, reduceIte]
    cases bumpDup st.learning_candidates src orig conf <;> simp
  · intro cands' hbump
    unfold learn_from_llm_improvement
    simp only [hen, Bool.not_eq_true, Bool.true_eq_false, if_false, reduceIte, hbump]
    simp
  · intro hbump
    unfold learn_from_llm_improvement
    simp only [hen, Bool.not_eq_true, Bool.true_eq_false, if_false, reduceIte, hbump, hdet]
    by_cases hcond : st.learning_config.confidence_threshold ≤ conf
        ∧ st.learning_config.auto_improve = true
    · simp only [hcond, and_self, if_true, reduceIte]
      refine unpatterned_survives_evaluate _ now _ ?_ rfl
      simp
    · simp only [hcond, if_false, reduceIte]
      simp

/-- Witness for C5's amended statement at the counterexample's inputs. -/
theorem C5_witness :
    (learn_from_llm_improvement eqOpOracle wDRM (s2l "src") (s2l "same") (s2l "same")
        0 (s2l "ts")).1 = true
      ∧ detect_improvement_pattern eqOpOracle (s2l "same") (s2l "same") = (none, none) :=
  ⟨(C5_noop_observation_accepted_but_unpatterned eqOpOracle wDRM (s2l "src")
      (s2l "same") (s2l "same") 0 (s2l "ts") rfl rfl (by decide)).1,
   (C5_noop_observation_accepted_but_unpatterned eqOpOracle wDRM (s2l "src")
      (s2l "same") (s2l "same") 0 (s2l "ts") rfl rfl (by decide)).2.1⟩

/-! ## Claim C3 — promotion of candidate groups

`_evaluate_learning_candidates` creates a rule for a pattern group only
when, *in addition to* the frequency and confidence thresholds, the group
contributes at least one non-empty suggested replacement
(`if replacements:`).  A group loaded with `suggested_replacement = null`
meets both thresholds yet produces no rule, so the claim's "exactly when"
needs that third condition. -/

/-- The qualification test actually implemented: thresholds plus a
usable replacement. -/
def groupQualifies (cfg : LearningConfig) (g : LC × List LearningCandidate) : Prop :=
  cfg.min_frequency_for_pattern ≤ sumFreq g.2
    ∧ cfg.confidence_threshold ≤ weightedAvg g.2
    ∧ (mostCommon ((g.2.filterMap LearningCandidate.suggested_replacement).filter
        (fun r => r ≠ []))).isSome

instance (cfg : LearningConfig) (g : LC × List LearningCandidate) :
    Decidable (groupQualifies cfg g) := by
  unfold groupQualifies
  infer_instance

theorem mget_cleanup (st : DRM) (k : LC) :
    mget (cleanup_learned_rules st).learned_rules k
      = (if st.learning_config.max_learned_rules < (mget st.learned_rules k).length
          then (List.insertionSort scoreOrder (mget st.learned_rules k)).take
            st.learning_config.max_learned_rules
          else mget st.learned_rules k) := by
  have gen : ∀ (m : RMap) (maxR : Nat),
      mget (m.map (fun kv =>
          if maxR < kv.2.length then (kv.1, (List.insertionSort scoreOrder kv.2).take maxR)
          else kv)) k
        = if maxR < (mget m k).length
            then (List.insertionSort scoreOrder (mget m k)).take maxR
            else mget m k := by
    intro m maxR
    induction m with
    | nil => simp [mget]
    | cons kv rest ih =>
      obtain ⟨k0, v0⟩ := kv
      rw [List.map_cons]
      have hhead : (if maxR < ((k0, v0) : LC × List Rule).2.length
            then (((k0, v0) : LC × List Rule).1, (List.insertionSort scoreOrder ((k0, v0) : LC × List Rule).2).take maxR)
            else ((k0, v0) : LC × List Rule))
          = if maxR < v0.length then (k0, (List.insertionSort scoreOrder v0).take maxR)
            else (k0, v0) := rfl
      rw [hhead]
      by_cases hl : maxR < v0.length
      · rw [if_pos hl]
        by_cases hk : k0 = k
        · subst hk
          simp [mget, hl]
        · simp only [mget, hk, if_false, reduceIte]
          exact ih
      · rw [if_neg hl]
        by_cases hk : k0 = k
        · subst hk
          simp [mget, hl]
        · simp only [mget, hk, if_false, reduceIte]
          exact ih
  exact gen st.learned_rules st.learning_config.max_learned_rules

theorem cleanup_config (st : DRM) :
    (cleanup_learned_rules st).learning_config = st.learning_config := rfl

theorem create_config (st : DRM) (p rep : LC) (cands : List LearningCandidate) (now : LC) :
    (create_learned_rule st p rep cands now).learning_config = st.learning_config := rfl

theorem create_post_length (st : DRM) (p rep : LC) (cands : List LearningCandidate) (now : LC)
    (hlen : (mget st.learned_rules (s2l "post_translation")).length + 1
      ≤ st.learning_config.max_learned_rules) :
    (mget (create_learned_rule st p rep cands now).learned_rules (s2l "post_translation")).length
      = (mget st.learned_rules (s2l "post_translation")).length + 1 := by
  unfold create_learned_rule save_learned_rules
  simp only
  rw [mget_cleanup]
  simp only [mget_msetR_self, List.length_append, List.length_singleton]
  rw [if_neg (by omega : ¬ st.learning_config.max_learned_rules
    < (mget st.learned_rules (s2l "post_translation")).length + 1)]
  simp

theorem evalGroup_config (st : DRM) (p : LC) (cs : List LearningCandidate) (now : LC) :
    (evalGroup st p cs now).learning_config = st.learning_config := by
  unfold evalGroup
  by_cases hq : st.learning_config.min_frequency_for_pattern ≤ sumFreq cs
      ∧ st.learning_config.confidence_threshold ≤ weightedAvg cs
  · simp only [hq, if_true, reduceIte]
    cases mostCommon ((cs.filterMap LearningCandidate.suggested_replacement).filter
        (fun r => r ≠ [])) with
    | none => rfl
    | some rep => exact create_config st p rep cs now
  · simp [hq]

theorem evalGroup_post_length (st : DRM) (p : LC) (cs : List LearningCandidate) (now : LC)
    (hlen : (mget st.learned_rules (s2l "post_translation")).length + 1
      ≤ st.learning_config.max_learned_rules) :
    (mget (evalGroup st p cs now).learned_rules (s2l "post_translation")).length
      = (mget st.learned_rules (s2l "post_translation")).length
        + (if groupQualifies st.learning_config (p, cs) then 1 else 0) := by
  unfold evalGroup
  by_cases hq : st.learning_config.min_frequency_for_pattern ≤ sumFreq cs
      ∧ st.learning_config.confidence_threshold ≤ weightedAvg cs
  · simp only [hq, if_true, reduceIte]
    cases hmc : mostCommon ((cs.filterMap LearningCandidate.suggested_replacement).filter
        (fun r => r ≠ [])) with
    | none =>
      have hng : ¬ groupQualifies st.learning_config (p, cs) := by
        unfold groupQualifies
        rintro ⟨-, -, hs⟩
        rw [hmc] at hs
        simp at hs
      simp [hng]
    | some rep =>
      have hg : groupQualifies st.learning_config (p, cs) := by
        unfold groupQualifies
        exact ⟨hq.1, hq.2, by rw [hmc]; rfl⟩
      simp only [hg, if_true, reduceIte]
      exact create_post_length st p rep cs now hlen
  · have : ¬ groupQualifies st.learning_config (p, cs) := by
      unfold groupQualifies
      intro hcontra
      exact hq ⟨hcontra.1, hcontra.2.1⟩
    simp only [hq, if_false, reduceIte, this]
    simp

theorem evalGroups_fold_length (now : LC) :
    ∀ (gs : List (LC × List LearningCandidate)) (st : DRM),
      (mget st.learned_rules (s2l "post_translation")).length + gs.length
        ≤ st.learning_config.max_learned_rules →
      (mget (gs.foldl (fun s g => evalGroup s g.1 g.2 now) st).learned_rules
          (s2l "post_translation")).length
        = (mget st.learned_rules (s2l "post_translation")).length
          + (gs.countP (fun g => decide (groupQualifies st.learning_config g))) := by
  intro gs
  induction gs with
  | nil => intro st _; simp
  | cons g rest ih =>
    intro st hlen
    simp only [List.foldl_cons, List.countP_cons]
    have hstep := evalGroup_post_length st g.1 g.2 now
      (by simp only [List.length_cons] at hlen; omega)
    have hcfg := evalGroup_config st g.1 g.2 now
    have hrec := ih (evalGroup st g.1 g.2 now) (by
      rw [hstep, hcfg]
      by_cases hq : groupQualifies st.learning_config (g.1, g.2)
      · simp only [hq, if_true, reduceIte]
        simp only [List.length_cons] at hlen
        omega
      · simp only [hq, if_false, reduceIte]
        simp only [List.length_cons] at hlen
        omega)
    simp only [hcfg] at hrec
    rw [hrec, hstep]
    have hgg : g = (g.1, g.2) := rfl
    by_cases hq : groupQualifies st.learning_config (g.1, g.2)
    · have hg : groupQualifies st.learning_config g := by rw [hgg]; exact hq
      simp [hq, hg]
      omega
    · have hg : ¬ groupQualifies st.learning_config g := by rw [hgg]; exact hq
      simp [hq, hg]

/-- A (loadable) pending candidate meeting both thresholds but carrying
no suggested replacement. -/
def c3cexCand : LearningCandidate :=
  { source_text := s2l "s", original_translation := s2l "o",
    improved_translation := s2l "i", improvement_source := s2l "llm",
    confidence := 9/10, frequency := 3, detected_pattern := some (s2l "p"),
    suggested_replacement := none }

def c3cexDRM : DRM :=
  { base_rules := [], learned_rules := [], mod_specific_rules := [],
    learning_candidates := [c3cexCand], learning_config := defaultLearningConfig }

/-- C3, counterexample: this single-candidate group has total frequency 3
≥ 3 and weighted confidence 0.9 ≥ 0.8, yet evaluation creates no rule
(the state is returned unchanged), because the group has no usable
suggested replacement — refuting "creates a new learned rule exactly when
the thresholds hold". -/
theorem C3_cex_thresholds_met_but_no_rule :
    defaultLearningConfig.min_frequency_for_pattern ≤ sumFreq [c3cexCand]
      ∧ defaultLearningConfig.confidence_threshold ≤ weightedAvg [c3cexCand]
      ∧ evaluate_learning_candidates c3cexDRM (s2l "ts") = c3cexDRM := by
  have h1 : defaultLearningConfig.min_frequency_for_pattern ≤ sumFreq [c3cexCand] := by
    decide
  have h2 : defaultLearningConfig.confidence_threshold ≤ weightedAvg [c3cexCand] := by
    norm_num [weightedAvg, sumFreq, c3cexCand, defaultLearningConfig]
  refine ⟨h1, h2, ?_⟩
  unfold evaluate_learning_candidates
  rw [if_neg (by simp [c3cexDRM] : ¬ c3cexDRM.learning_candidates = [])]
  have hg : groupByPattern c3cexDRM.learning_candidates = [(s2l "p", [c3cexCand])] := by
    simp [groupByPattern, groupAdd, c3cexDRM, c3cexCand]
  rw [hg]
  simp only [List.foldl_cons, List.foldl_nil]
  unfold evalGroup
  rw [if_pos ⟨h1, h2⟩]
  have hmc : mostCommon (([c3cexCand].filterMap LearningCandidate.suggested_replacement).filter
      (fun r => r ≠ [])) = none := by
    simp [c3cexCand, mostCommon, uniqueFirst]
  rw [hmc]

def c3a : LearningCandidate :=
  { source_text := s2l "s1", original_translation := s2l "o1",
    improved_translation := s2l "i1", improvement_source := s2l "llm",
    confidence := 9/10, frequency := 1, detected_pattern := some (s2l "p"),
    suggested_replacement := some (s2l "rep") }

def c3b : LearningCandidate := { c3a with source_text := s2l "s2", original_translation := s2l "o2" }

def c3c : LearningCandidate := { c3a with source_text := s2l "s3", original_translation := s2l "o3" }

def c3DRM3 : DRM :=
  { base_rules := [], learned_rules := [], mod_specific_rules := [],
    learning_candidates := [c3a, c3b, c3c], learning_config := defaultLearningConfig }

def c3DRM2 : DRM :=
  { base_rules := [], learned_rules := [], mod_specific_rules := [],
    learning_candidates := [c3a, c3b], learning_config := defaultLearningConfig }

/-- C3 (amended).  Evaluating the pending candidates creates one new
learned rule per pattern group exactly when the group's total frequency
reaches the configured minimum, its frequency-weighted average confidence
reaches the configured threshold, *and* the group carries at least one
non-empty suggested replacement (`groupQualifies`); the rules land in the
`post_translation` stage (stated under the proviso that the stage stays
within the eviction cap, so eviction does not interfere).  With the
defaults, three candidates sharing one pattern with confidence 0.9 each
yield exactly one new rule whose confidence is the group's weighted
average 0.9, and two such candidates yield zero new rules. -/
theorem C3_candidate_promotion (st : DRM) (now : LC)
    (hlen : (mget st.learned_rules (s2l "post_translation")).length
      + (groupByPattern st.learning_candidates).length
      ≤ st.learning_config.max_learned_rules) :
    (mget (evaluate_learning_candidates st now).learned_rules (s2l "post_translation")).length
        = (mget st.learned_rules (s2l "post_translation")).length
          + ((groupByPattern st.learning_candidates).countP
              (fun g => decide (groupQualifies st.learning_config g)))
      ∧ (mget (evaluate_learning_candidates c3DRM3 (s2l "ts")).learned_rules
            (s2l "post_translation")).map (fun r => (r.stage, r.confidence))
          = [(s2l "post_translation", weightedAvg [c3a, c3b, c3c])]
      ∧ weightedAvg [c3a, c3b, c3c] = 9/10
      ∧ mget (evaluate_learning_candidates c3DRM2 (s2l "ts")).learned_rules
          (s2l "post_translation") = [] := by
  refine ⟨?_, ?_, ?_, ?_⟩
  · unfold evaluate_learning_candidates
    by_cases h0 : st.learning_candidates = []
    · simp [h0, groupByPattern]
    · simp only [h0, if_false, reduceIte]
      exact evalGroups_fold_length now (groupByPattern st.learning_candidates) st hlen
  · have hq1 : defaultLearningConfig.min_frequency_for_pattern ≤ sumFreq [c3a, c3b, c3c] := by
      decide
    have hq2 : defaultLearningConfig.confidence_threshold ≤ weightedAvg [c3a, c3b, c3c] := by
      norm_num [weightedAvg, sumFreq, c3a, c3b, c3c, defaultLearningConfig]
    unfold evaluate_learning_candidates
    rw [if_neg (by simp [c3DRM3] : ¬ c3DRM3.learning_candidates = [])]
    have hg : groupByPattern c3DRM3.learning_candidates = [(s2l "p", [c3a, c3b, c3c])] := by
      simp [groupByPattern, groupAdd, c3DRM3, c3a, c3b, c3c]
    rw [hg]
    simp only [List.foldl_cons, List.foldl_nil]
    unfold evalGroup
    rw [if_pos ⟨hq1, hq2⟩]
    have hmc : mostCommon (([c3a, c3b, c3c].filterMap LearningCandidate.suggested_replacement).filter
        (fun r => r ≠ [])) = some (s2l "rep") := by
      decide
    rw [hmc]
    unfold create_learned_rule save_learned_rules
    simp only [mget_msetR_self]
    rw [mget_cleanup]
    simp only [mget_msetR_self]
    have hmax : defaultLearningConfig.max_learned_rules = 100 := rfl
    simp [c3DRM3, mget, hmax]
  · norm_num [weightedAvg, sumFreq, c3a, c3b, c3c]
  · unfold evaluate_learning_candidates
    rw [if_neg (by simp [c3DRM2] : ¬ c3DRM2.learning_candidates = [])]
    have hg : groupByPattern c3DRM2.learning_candidates = [(s2l "p", [c3a, c3b])] := by
      simp [groupByPattern, groupAdd, c3DRM2, c3a, c3b]
    rw [hg]
    simp only [List.foldl_cons, List.foldl_nil]
    unfold evalGroup
    rw [if_neg (by
      rintro ⟨hfreq, -⟩
      have : sumFreq [c3a, c3b] = 2 := by decide
      rw [this] at hfreq
      have : c3DRM2.learning_config.min_frequency_for_pattern = 3 := rfl
      omega)]
    simp [c3DRM2, mget]

/-- Witness for C3's amended statement: the three-candidate default state
satisfies the eviction-cap proviso. -/
theorem C3_witness :
    (mget c3DRM3.learned_rules (s2l "post_translation")).length
        + (groupByPattern c3DRM3.learning_candidates).length
        ≤ c3DRM3.learning_config.max_learned_rules
      ∧ weightedAvg [c3a, c3b, c3c] = 9/10 :=
  ⟨by decide, (C3_candidate_promotion c3DRM3 (s2l "ts") (by decide)).2.2.1⟩

/-! ## Claim C4 — eviction bound -/

instance : IsTotal Rule scoreOrder := ⟨fun a b => le_total (rule_score b) (rule_score a)⟩

instance : IsTrans Rule scoreOrder := ⟨fun _ _ _ h1 h2 => le_trans h2 h1⟩

/-- C4.  After eviction no stage holds more learned rules than the
configured maximum; a stage at or under the maximum is left exactly as it
was; an over-full stage is cut to exactly `max_learned_rules` rules which
are drawn from the stored rules (a sub-permutation: nothing new, no
duplication) and each kept rule scores at least as high as every evicted
one under `confidence × (1 + usage_count) × success_rate`.  In particular
a stage holding 150 learned rules with the default maximum 100 is reduced
to exactly the 100 highest-scoring ones. -/
theorem C4_eviction_keeps_best_within_cap :
    (∀ (st : DRM) (k : LC), (mget (cleanup_learned_rules st).learned_rules k).length
        ≤ st.learning_config.max_learned_rules ∨
        mget (cleanup_learned_rules st).learned_rules k = mget st.learned_rules k)
    ∧ (∀ (st : DRM) (k : LC), (mget st.learned_rules k).length ≤ st.learning_config.max_learned_rules →
        mget (cleanup_learned_rules st).learned_rules k = mget st.learned_rules k)
    ∧ (∀ (st : DRM) (k : LC), (mget (cleanup_learned_rules st).learned_rules k).length
        ≤ max (mget st.learned_rules k).length st.learning_config.max_learned_rules)
    ∧ (∀ (st : DRM) (k : LC),
        st.learning_config.max_learned_rules < (mget st.learned_rules k).length →
        (mget (cleanup_learned_rules st).learned_rules k).length
            = st.learning_config.max_learned_rules
          ∧ List.Subperm (mget (cleanup_learned_rules st).learned_rules k) (mget st.learned_rules k)
          ∧ ∀ r ∈ mget (cleanup_learned_rules st).learned_rules k,
              ∀ r' ∈ (List.insertionSort scoreOrder (mget st.learned_rules k)).drop
                  st.learning_config.max_learned_rules,
                rule_score r' ≤ rule_score r) := by
  have hsortlen : ∀ (l : List Rule), (List.insertionSort scoreOrder l).length = l.length :=
    fun l => (List.perm_insertionSort scoreOrder l).length_eq
  refine ⟨?_, ?_, ?_, ?_⟩
  · intro st k
    rw [mget_cleanup]
    by_cases h : st.learning_config.max_learned_rules < (mget st.learned_rules k).length
    · left
      simp only [h, if_true, reduceIte, List.length_take]
      omega
    · right
      simp [h]
  · intro st k h
    rw [mget_cleanup]
    rw [if_neg (by omega)]
  · intro st k
    rw [mget_cleanup]
    by_cases h : st.learning_config.max_learned_rules < (mget st.learned_rules k).length
    · simp only [h, if_true, reduceIte, List.length_take]
      omega
    · simp only [h, if_false, reduceIte]
      omega
  · intro st k hover
    rw [mget_cleanup, if_pos hover]
    have hlen : ((List.insertionSort scoreOrder (mget st.learned_rules k)).take
        st.learning_config.max_learned_rules).length = st.learning_config.max_learned_rules := by
      rw [List.length_take, hsortlen]
      omega
    refine ⟨hlen, ?_, ?_⟩
    · exact ((List.take_sublist _ _).subperm).trans
        (List.perm_insertionSort scoreOrder (mget st.learned_rules k)).subperm
    · intro r hr r' hr'
      have hsorted : List.Pairwise (fun a b => decide (scoreOrder a b) = true)
          (List.insertionSort scoreOrder (mget st.learned_rules k)) := by
        have := List.sorted_insertionSort scoreOrder (mget st.learned_rules k)
        refine this.imp ?_
        intro a b h
        exact decide_eq_true h
      have hsplit := List.take_append_drop st.learning_config.max_learned_rules
        (List.insertionSort scoreOrder (mget st.learned_rules k))
      rw [← hsplit] at hsorted
      have := (List.pairwise_append.mp hsorted).2.2 r hr r' hr'
      simpa [scoreOrder] using of_decide_eq_true this

def c4r1 : Rule := { wRule with name := s2l "r1", confidence := 1 }
def c4r2 : Rule := { wRule with name := s2l "r2", confidence := 2 }
def c4r3 : Rule := { wRule with name := s2l "r3", confidence := 3 }

def c4st : DRM :=
  { base_rules := [], mod_specific_rules := [], learning_candidates := [],
    learned_rules := [(s2l "post_translation", [c4r1, c4r2, c4r3])],
    learning_config := { defaultLearningConfig with max_learned_rules := 2 } }

/-- Witness for C4 at a concrete over-full stage (three rules, cap two). -/
theorem C4_witness :
    c4st.learning_config.max_learned_rules
        < (mget c4st.learned_rules (s2l "post_translation")).length
      ∧ (mget (cleanup_learned_rules c4st).learned_rules (s2l "post_translation")).length
        = c4st.learning_config.max_learned_rules :=
  ⟨by decide,
   (C4_eviction_keeps_best_within_cap.2.2.2 c4st (s2l "post_translation") (by decide)).1⟩

/-! ## Claim C9 — importing reviewed rules -/

/-- Replace the learned-rules store (record-update helper). -/
def withLearned (st : DRM) (m : RMap) : DRM := { st with learned_rules := m }

/-- The fields review approval must *not* change: name, stage and the
statistics and provenance fields. -/
def reviewFixed (ru : Rule) : LC × LC × Nat × ℚ × Option LC × Option LC :=
  (ru.name, ru.stage, ru.usage_count, ru.success_rate, ru.created_at, ru.mod_specific)

theorem importGo_counts :
    ∀ (entries : List ReviewEntry) (st : DRM) (a r : Nat),
      (importGo entries st a r).1 = a + entries.countP (fun e => e.approved == some true)
        ∧ (importGo entries st a r).2.1 = r + entries.countP (fun e => e.approved == some false) := by
  intro entries
  induction entries with
  | nil => intro st a r; simp [importGo]
  | cons e es ih =>
    intro st a r
    cases he : e.approved with
    | none =>
      have hL : importGo (e :: es) st a r = importGo es st a r := by
        simp only [importGo, he]
      rw [hL]
      have := ih st a r
      simp only [List.countP_cons, he]
      simpa using this
    | some b =>
      cases b with
      | true =>
        have hL : importGo (e :: es) st a r = importGo es
            (withLearned st (msetR st.learned_rules (entryRule e).stage
              (updateOrAppend (mget st.learned_rules (entryRule e).stage) (entryRule e))))
            (a + 1) r := by
          simp only [importGo, he, withLearned]
        rw [hL]
        have := ih (withLearned st (msetR st.learned_rules (entryRule e).stage
          (updateOrAppend (mget st.learned_rules (entryRule e).stage) (entryRule e)))) (a + 1) r
        simp only [List.countP_cons, he]
        constructor
        · rw [this.1]; simp; omega
        · rw [this.2]; simp
      | false =>
        have hL : importGo (e :: es) st a r = importGo es
            (withLearned st (msetR st.learned_rules e.stage
              ((mget st.learned_rules e.stage).filter (fun ru => ru.name ≠ e.name))))
            a (r + 1) := by
          simp only [importGo, he, withLearned]
        rw [hL]
        have := ih (withLearned st (msetR st.learned_rules e.stage
          ((mget st.learned_rules e.stage).filter (fun ru => ru.name ≠ e.name)))) a (r + 1)
        simp only [List.countP_cons, he]
        constructor
        · rw [this.1]; simp
        · rw [this.2]; simp; omega

/-- C9.  Importing reviewed rules processes each entry as the claim
states: a `null` verdict is a no-op; `false` removes every same-named
rule from that entry's stage; `true` rewrites the first same-named rule
in place touching exactly pattern, replacement, description and
confidence (all other fields of every stored rule are untouched), or
appends the entry's rule when no same-named rule exists.  The returned
value is the number of `approved == true` entries, and persistence
(`save_learned_rules`) runs exactly when at least one approval or
rejection occurred. -/
theorem C9_import_reviewed_rules (entries : List ReviewEntry) (st : DRM) :
    (import_reviewed_rules entries st).1
        = entries.countP (fun e => e.approved == some true)
    ∧ ((import_reviewed_rules entries st).2.2 = true ↔ ∃ e ∈ entries, e.approved ≠ none)
    ∧ (∀ (l : List Rule) (rule : Rule),
        ((∀ ru ∈ l, ru.name ≠ rule.name) → updateOrAppend l rule = l ++ [rule])
        ∧ (updateOrAppend l rule).map reviewFixed
            = (if l.any (fun ru => ru.name == rule.name) then l.map reviewFixed
               else l.map reviewFixed ++ [reviewFixed rule]))
    ∧ (∀ (e : ReviewEntry) (es : List ReviewEntry) (st' : DRM) (a r : Nat),
        (e.approved = none → importGo (e :: es) st' a r = importGo es st' a r)
        ∧ (e.approved = some false →
            importGo (e :: es) st' a r
              = importGo es (withLearned st' (msetR st'.learned_rules e.stage
                  ((mget st'.learned_rules e.stage).filter (fun ru => ru.name ≠ e.name)))) a (r + 1))
        ∧ (e.approved = some true →
            importGo (e :: es) st' a r
              = importGo es (withLearned st' (msetR st'.learned_rules (entryRule e).stage
                  (updateOrAppend (mget st'.learned_rules (entryRule e).stage) (entryRule e)))) (a + 1) r))
    ∧ (∀ (ru : Rule) (name : LC) (l : List Rule),
        ru ∈ l.filter (fun x => x.name ≠ name) ↔ ru ∈ l ∧ ru.name ≠ name) := by
  refine ⟨?_, ?_, ?_, ?_, ?_⟩
  · unfold import_reviewed_rules
    have h := importGo_counts entries st 0 0
    by_cases hc : 0 < (importGo entries st 0 0).1 ∨ 0 < (importGo entries st 0 0).2.1
    · simp only [hc, if_true, reduceIte]
      simpa using h.1
    · simp only [hc, if_false, reduceIte]
      simpa using h.1
  · unfold import_reviewed_rules
    have h := importGo_counts entries st 0 0
    by_cases hc : 0 < (importGo entries st 0 0).1 ∨ 0 < (importGo entries st 0 0).2.1
    · simp only [hc, if_true, reduceIte, true_iff]
      rcases hc with hc | hc
      · rw [h.1] at hc
        simp only [Nat.zero_add] at hc
        obtain ⟨e, he, hp⟩ := List.countP_pos_iff.mp hc
        exact ⟨e, he, by simp at hp; simp [hp]⟩
      · rw [h.2] at hc
        simp only [Nat.zero_add] at hc
        obtain ⟨e, he, hp⟩ := List.countP_pos_iff.mp hc
        exact ⟨e, he, by simp at hp; simp [hp]⟩
    · simp only [hc, if_false, reduceIte, Bool.false_eq_true, false_iff]
      push_neg at hc
      rintro ⟨e, he, hp⟩
      rw [h.1, h.2] at hc
      simp only [Nat.zero_add, Nat.le_zero] at hc
      cases happ : e.approved with
      | none => exact hp happ
      | some b =>
        cases b with
        | true =>
          have := List.countP_eq_zero.mp hc.1 e he
          simp [happ] at this
        | false =>
          have := List.countP_eq_zero.mp hc.2 e he
          simp [happ] at this
  · intro l rule
    constructor
    · intro hnone
      induction l with
      | nil => rfl
      | cons ru rus ih =>
        have hne : ru.name ≠ rule.name := hnone ru (List.mem_cons_self _ _)
        simp only [updateOrAppend, hne, if_false, reduceIte]
        rw [ih (fun x hx => hnone x (List.mem_cons_of_mem _ hx))]
        rfl
    · induction l with
      | nil => simp [updateOrAppend]
      | cons ru rus ih =>
        by_cases hne : ru.name = rule.name
        · simp [updateOrAppend, hne, reviewFixed]
        · simp only [updateOrAppend, hne, if_false, reduceIte, List.map_cons, List.any_cons]
          rw [ih]
          by_cases hany : rus.any (fun x => x.name == rule.name)
          · simp [hany, hne]
          · simp [hany, hne]
  · intro e es st' a r
    refine ⟨?_, ?_, ?_⟩
    · intro he; simp only [importGo, he]
    · intro he; simp only [importGo, he, withLearned]
    · intro he; simp only [importGo, he, withLearned]
  · intro ru name l
    simp [List.mem_filter]

def c9approve : ReviewEntry :=
  { name := s2l "r9", pattern := s2l "p9", replacement := s2l "q9",
    description := s2l "d9", stage := s2l "post_translation", confidence := 1,
    usage_count := 0, success_rate := 1, created_at := none, mod_specific := none,
    approved := some true, review_notes := [] }

/-- Witness for C9's inner hypotheses at a concrete input: one approved
entry on an empty store appends the rule and returns 1. -/
theorem C9_witness :
    (import_reviewed_rules [c9approve] wDRM).1 = 1
      ∧ updateOrAppend [] (entryRule c9approve) = [] ++ [entryRule c9approve] :=
  ⟨by rw [(C9_import_reviewed_rules [c9approve] wDRM).1]; rfl,
   ((C9_import_reviewed_rules [c9approve] wDRM).2.2.1 [] (entryRule c9approve)).1
     (fun ru hru => absurd hru (by simp))⟩

/-! ## Claim C2 (amended) — infrastructure

The placeholder alphabet: every character that can occur in a
`__PROTECTED_{i}_{j}__` string.  Texts and matches built from characters
outside this alphabet cannot interfere with inserted placeholders. -/

def digitChars : LC := ['0', '1', '2', '3', '4', '5', '6', '7', '8', '9']

def badChars : LC := '_' :: 'P' :: 'R' :: 'O' :: 'T' :: 'E' :: 'C' :: 'D' :: digitChars

/-- A character that cannot occur inside any placeholder. -/
def goodChar (c : Char) : Prop := c ∉ badChars

theorem digitChar_mem (n : Nat) : digitChar n ∈ digitChars := by
  unfold digitChar
  split <;> decide

/-- The recursive equation of `natDigits`, fuel eliminated. -/
theorem natDigits_eq (n : Nat) :
    natDigits n = if n < 10 then [digitChar n]
      else natDigits (n / 10) ++ [digitChar (n % 10)] := by
  by_cases h : n < 10
  · simp [natDigits, natDigitsGo, h]
  · have hd : n / 10 < n := Nat.div_lt_self (by omega) (by omega)
    have h1 : natDigits n = natDigitsGo n (n / 10) ++ [digitChar (n % 10)] := by
      show natDigitsGo (n + 1) n = _
      rw [show natDigitsGo (n + 1) n
        = if n < 10 then [digitChar n] else natDigitsGo n (n / 10) ++ [digitChar (n % 10)] from rfl]
      simp [h]
    rw [h1, natDigitsGo_fuel n (n / 10) (by omega)]
    simp [h]

theorem natDigits_ne_nil (n : Nat) : natDigits n ≠ [] := by
  rw [natDigits_eq]
  by_cases h : n < 10 <;> simp [h]

theorem natDigits_mem_digits (n : Nat) : ∀ c ∈ natDigits n, c ∈ digitChars := by
  induction n using Nat.strong_induction_on with
  | _ n ih =>
    rw [natDigits_eq]
    by_cases h : n < 10
    · simp only [h, if_true, reduceIte, List.mem_singleton]
      intro c hc
      exact hc ▸ digitChar_mem n
    · simp only [h, if_false, reduceIte, List.mem_append, List.mem_singleton]
      intro c hc
      rcases hc with hc | hc
      · exact ih (n / 10) (Nat.div_lt_self (by omega) (by omega)) c hc
      · exact hc ▸ digitChar_mem (n % 10)

def digitVal (c : Char) : Nat := c.toNat - 48

def digitsVal (l : LC) : Nat := l.foldl (fun a c => 10 * a + digitVal c) 0

theorem digitsVal_go (l : LC) : ∀ a, l.foldl (fun a c => 10 * a + digitVal c) a
    = a * 10 ^ l.length + digitsVal l := by
  induction l with
  | nil => intro a; simp [digitsVal]
  | cons c rest ih =>
    intro a
    simp only [List.foldl_cons, List.length_cons, digitsVal]
    rw [ih (10 * a + digitVal c), ih (10 * 0 + digitVal c)]
    ring

theorem digitVal_digitChar (n : Nat) (h : n < 10) : digitVal (digitChar n) = n := by
  interval_cases n <;> decide

theorem digitsVal_natDigits (n : Nat) : digitsVal (natDigits n) = n := by
  induction n using Nat.strong_induction_on with
  | _ n ih =>
    rw [natDigits_eq]
    by_cases h : n < 10
    · simp only [h, if_true, reduceIte]
      simp [digitsVal, digitVal_digitChar n h]
    · simp only [h, if_false, reduceIte]
      have hd : n / 10 < n := Nat.div_lt_self (by omega) (by omega)
      simp only [digitsVal, List.foldl_append, List.foldl_cons, List.foldl_nil]
      have h1 : (natDigits (n / 10)).foldl (fun a c => 10 * a + digitVal c) 0 = n / 10 := by
        have := ih (n / 10) hd
        simpa [digitsVal] using this
      rw [h1, digitVal_digitChar (n % 10) (Nat.mod_lt n (by omega))]
      omega

theorem natDigits_inj {m n : Nat} (h : natDigits m = natDigits n) : m = n := by
  have := congrArg digitsVal h
  rwa [digitsVal_natDigits, digitsVal_natDigits] at this

theorem placeholder_eq (i j : Nat) :
    placeholder i j
      = '_' :: '_' :: 'P' :: 'R' :: 'O' :: 'T' :: 'E' :: 'C' :: 'T' :: 'E' :: 'D' :: '_'
        :: (natDigits i ++ '_' :: (natDigits j ++ ['_', '_'])) := rfl

theorem placeholder_mem_bad (i j : Nat) : ∀ c ∈ placeholder i j, c ∈ badChars := by
  intro c hc
  have hi := natDigits_mem_digits i c
  have hj := natDigits_mem_digits j c
  have hdig : ∀ d, d ∈ digitChars → d ∈ badChars := by
    intro d hd
    unfold badChars
    exact List.mem_cons_of_mem _ (List.mem_cons_of_mem _ (List.mem_cons_of_mem _
      (List.mem_cons_of_mem _ (List.mem_cons_of_mem _ (List.mem_cons_of_mem _
        (List.mem_cons_of_mem _ (List.mem_cons_of_mem _ hd)))))))
  rw [placeholder_eq] at hc
  rcases List.mem_cons.mp hc with h | hc
  · subst h; decide
  rcases List.mem_cons.mp hc with h | hc
  · subst h; decide
  rcases List.mem_cons.mp hc with h | hc
  · subst h; decide
  rcases List.mem_cons.mp hc with h | hc
  · subst h; decide
  rcases List.mem_cons.mp hc with h | hc
  · subst h; decide
  rcases List.mem_cons.mp hc with h | hc
  · subst h; decide
  rcases List.mem_cons.mp hc with h | hc
  · subst h; decide
  rcases List.mem_cons.mp hc with h | hc
  · subst h; decide
  rcases List.mem_cons.mp hc with h | hc
  · subst h; decide
  rcases List.mem_cons.mp hc with h | hc
  · subst h; decide
  rcases List.mem_cons.mp hc with h | hc
  · subst h; decide
  rcases List.mem_cons.mp hc with h | hc
  · subst h; decide
  rcases List.mem_append.mp hc with h | hc
  · exact hdig c (hi h)
  rcases List.mem_cons.mp hc with h | hc
  · subst h; decide
  rcases List.mem_append.mp hc with h | hc
  · exact hdig c (hj h)
  rcases List.mem_cons.mp hc with h | hc
  · subst h; decide
  rcases List.mem_cons.mp hc with h | hc
  · subst h; decide
  exact absurd hc (by simp)

theorem placeholder_length (i j : Nat) :
    17 ≤ (placeholder i j).length := by
  rw [placeholder_eq]
  simp only [List.length_cons, List.length_append]
  have h1 := natDigits_ne_nil i
  have h2 := natDigits_ne_nil j
  have l1 : 1 ≤ (natDigits i).length := List.length_pos.mpr h1
  have l2 : 1 ≤ (natDigits j).length := List.length_pos.mpr h2
  omega

/-! ## A segment model for the protect/restore round trip (claim C2)

During `protect_expressions` the working text is a concatenation of
segments: original characters and whole placeholders.  The model records
the working text as a list of items; `renderItems` produces the working
text and `expandItems` the text the segments stand for.  The round-trip
theorem follows from invariants of the two folds over this model. -/

abbrev PKey := Nat × Nat

abbrev PItem := Char ⊕ (PKey × LC)

def renderItem : PItem → LC
  | Sum.inl c => [c]
  | Sum.inr km => placeholder km.1.1 km.1.2

def renderItems : List PItem → LC
  | [] => []
  | it :: rest => renderItem it ++ renderItems rest

def expandItem : PItem → LC
  | Sum.inl c => [c]
  | Sum.inr km => km.2

def expandItems : List PItem → LC
  | [] => []
  | it :: rest => expandItem it ++ expandItems rest

/-- Replace every placeholder item carrying key `k` by the characters of
its recorded original text (the effect of one restoration step). -/
def substKey (k : PKey) : List PItem → List PItem
  | [] => []
  | Sum.inl c :: rest => Sum.inl c :: substKey k rest
  | Sum.inr km :: rest =>
    if km.1 = k then km.2.map Sum.inl ++ substKey k rest
    else Sum.inr km :: substKey k rest

def goodStr (s : LC) : Prop := ∀ c ∈ s, goodChar c

instance (c : Char) : Decidable (goodChar c) :=
  inferInstanceAs (Decidable (c ∉ badChars))

/-- Well-formedness of an item list relative to the recorded protections:
plain characters avoid the placeholder alphabet and every placeholder
item's key and original text are recorded. -/
def ItemsOk (Q : List (PKey × LC)) (items : List PItem) : Prop :=
  (∀ c, Sum.inl c ∈ items → goodChar c) ∧ (∀ km, Sum.inr km ∈ items → km ∈ Q)

/-- Well-formedness of the recorded protections: pairwise distinct keys,
non-empty originals over the good alphabet. -/
def QOk (Q : List (PKey × LC)) : Prop :=
  (Q.map Prod.fst).Nodup ∧ ∀ q ∈ Q, q.2 ≠ [] ∧ goodStr q.2

theorem placeholder_ne_nil (i j : Nat) : placeholder i j ≠ [] := by
  rw [placeholder_eq]
  simp

theorem placeholder_head (i j : Nat) : (placeholder i j).head? = some '_' := by
  rw [placeholder_eq]
  rfl

theorem renderItems_map_inl (s : LC) : renderItems (s.map Sum.inl) = s := by
  induction s with
  | nil => rfl
  | cons c t ih => simp [renderItems, renderItem, ih]

theorem expandItems_map_inl (s : LC) : expandItems (s.map Sum.inl) = s := by
  induction s with
  | nil => rfl
  | cons c t ih => simp [expandItems, expandItem, ih]

theorem renderItems_append (x y : List PItem) :
    renderItems (x ++ y) = renderItems x ++ renderItems y := by
  induction x with
  | nil => rfl
  | cons it r ih => simp [renderItems, ih]

theorem expandItems_append (x y : List PItem) :
    expandItems (x ++ y) = expandItems x ++ expandItems y := by
  induction x with
  | nil => rfl
  | cons it r ih => simp [expandItems, ih]

theorem expandItems_substKey (k : PKey) (items : List PItem) :
    expandItems (substKey k items) = expandItems items := by
  induction items with
  | nil => rfl
  | cons it rest ih =>
    cases it with
    | inl c => simp [substKey, expandItems, ih]
    | inr km =>
      by_cases hk : km.1 = k
      · simp [substKey, hk, expandItems_append, expandItems_map_inl, expandItems, expandItem, ih]
      · simp [substKey, hk, expandItems, expandItem, ih]

theorem ItemsOk_tail {Q : List (PKey × LC)} {it : PItem} {rest : List PItem}
    (h : ItemsOk Q (it :: rest)) : ItemsOk Q rest :=
  ⟨fun c hc => h.1 c (List.mem_cons_of_mem it hc),
   fun km hkm => h.2 km (List.mem_cons_of_mem it hkm)⟩

/-- Two digit strings followed by an underscore separator align: a prefix
relation between them forces the digit parts to agree. -/
theorem digits_align :
    ∀ (A B X Y : LC), (∀ c ∈ A, c ∈ digitChars) → (∀ c ∈ B, c ∈ digitChars) →
      (A ++ '_' :: X) <+: (B ++ '_' :: Y) → A = B ∧ X <+: Y := by
  intro A
  induction A with
  | nil =>
    intro B X Y _ hB hpre
    cases B with
    | nil =>
      simp only [List.nil_append] at hpre
      rw [List.cons_prefix_cons] at hpre
      exact ⟨rfl, hpre.2⟩
    | cons b B2 =>
      simp only [List.nil_append, List.cons_append] at hpre
      rw [List.cons_prefix_cons] at hpre
      have hb : b ∈ digitChars := hB b (List.mem_cons_self _ _)
      rw [← hpre.1] at hb
      exact absurd hb (by decide)
  | cons a A2 ih =>
    intro B X Y hA hB hpre
    cases B with
    | nil =>
      simp only [List.cons_append, List.nil_append] at hpre
      rw [List.cons_prefix_cons] at hpre
      have ha : a ∈ digitChars := hA a (List.mem_cons_self _ _)
      rw [hpre.1] at ha
      exact absurd ha (by decide)
    | cons b B2 =>
      simp only [List.cons_append] at hpre
      rw [List.cons_prefix_cons] at hpre
      obtain ⟨hab, hrest⟩ := hpre
      obtain ⟨hAB, hXY⟩ := ih B2 X Y (fun c hc => hA c (List.mem_cons_of_mem _ hc))
        (fun c hc => hB c (List.mem_cons_of_mem _ hc)) hrest
      exact ⟨by rw [hab, hAB], hXY⟩

/-- A placeholder is a prefix of another placeholder followed by anything
only when the indices agree. -/
theorem ph_prefix_ph (i j a b : Nat) (s : LC)
    (h : placeholder i j <+: (placeholder a b ++ s)) : i = a ∧ j = b := by
  rw [placeholder_eq i j, placeholder_eq a b] at h
  simp only [List.cons_append] at h
  simp only [List.cons_prefix_cons, true_and] at h
  simp only [List.append_assoc, List.cons_append, List.nil_append] at h
  obtain ⟨hia, h2⟩ := digits_align (natDigits i) (natDigits a) _ _
    (natDigits_mem_digits i) (natDigits_mem_digits a) h
  obtain ⟨hjb, -⟩ := digits_align (natDigits j) (natDigits b) _ _
    (natDigits_mem_digits j) (natDigits_mem_digits b) h2
  exact ⟨natDigits_inj hia, natDigits_inj hjb⟩

/-- The letter block of the placeholder literal. -/
def PROT : LC := ['P', 'R', 'O', 'T', 'E', 'C', 'T', 'E', 'D']

/-- Scanning for one placeholder passes over a different placeholder
unchanged, provided what follows is empty, a good character, or the start
of another placeholder. -/
theorem skipPh (i j a b : Nat) (hne : ¬ (i = a ∧ j = b)) (m tail : LC)
    (htail : tail = [] ∨ (∃ c t, tail = c :: t ∧ goodChar c)
      ∨ (∃ v, tail = '_' :: '_' :: 'P' :: v)) :
    replaceAll (placeholder i j) m (placeholder a b ++ tail)
      = placeholder a b ++ replaceAll (placeholder i j) m tail := by
  have hph : placeholder i j ≠ [] := placeholder_ne_nil i j
  obtain ⟨da, Da2, hDa⟩ : ∃ d l, natDigits a = d :: l := by
    cases hc : natDigits a with
    | nil => exact absurd hc (natDigits_ne_nil a)
    | cons d l => exact ⟨d, l, rfl⟩
  obtain ⟨db, Db2, hDb⟩ : ∃ d l, natDigits b = d :: l := by
    cases hc : natDigits b with
    | nil => exact absurd hc (natDigits_ne_nil b)
    | cons d l => exact ⟨d, l, rfl⟩
  have hdaD : da ∈ digitChars := natDigits_mem_digits a da (by rw [hDa]; exact List.mem_cons_self _ _)
  have hdbD : db ∈ digitChars := natDigits_mem_digits b db (by rw [hDb]; exact List.mem_cons_self _ _)
  have hform : placeholder a b ++ tail
      = '_' :: '_' :: (PROT ++ '_' :: (natDigits a ++ '_' :: (natDigits b ++ '_' :: '_' :: tail))) := by
    rw [placeholder_eq a b]
    simp only [PROT, List.cons_append, List.nil_append, List.append_assoc]
  have hform2 : placeholder a b ++ replaceAll (placeholder i j) m tail
      = '_' :: '_' :: (PROT ++ '_' :: (natDigits a ++ '_' :: (natDigits b
          ++ '_' :: '_' :: replaceAll (placeholder i j) m tail))) := by
    rw [placeholder_eq a b]
    simp only [PROT, List.cons_append, List.nil_append, List.append_assoc]
  have h0 : ¬ placeholder i j <+:
      ('_' :: '_' :: (PROT ++ '_' :: (natDigits a ++ '_' :: (natDigits b ++ '_' :: '_' :: tail)))) := by
    rw [← hform]
    intro hp
    exact hne (ph_prefix_ph i j a b tail hp)
  have h1 : ¬ placeholder i j <+:
      ('_' :: (PROT ++ '_' :: (natDigits a ++ '_' :: (natDigits b ++ '_' :: '_' :: tail)))) := by
    intro hp
    rw [placeholder_eq] at hp
    simp only [PROT, List.cons_append] at hp
    rw [List.cons_prefix_cons] at hp
    obtain ⟨-, hp⟩ := hp
    rw [List.cons_prefix_cons] at hp
    exact absurd hp.1 (by decide)
  have hPROT : ∀ c ∈ PROT, (placeholder i j).head? ≠ some c := by
    intro c hc
    rw [placeholder_head]
    intro hsome
    injection hsome with h2
    rw [← h2] at hc
    exact absurd hc (by decide)
  have h11 : ¬ placeholder i j <+:
      ('_' :: (natDigits a ++ '_' :: (natDigits b ++ '_' :: '_' :: tail))) := by
    intro hp
    rw [placeholder_eq, hDa] at hp
    simp only [List.cons_append] at hp
    rw [List.cons_prefix_cons] at hp
    obtain ⟨-, hp⟩ := hp
    rw [List.cons_prefix_cons] at hp
    have h2 : '_' = da := hp.1
    rw [← h2] at hdaD
    exact absurd hdaD (by decide)
  have hDaBlk : ∀ c ∈ natDigits a, (placeholder i j).head? ≠ some c := by
    intro c hc
    rw [placeholder_head]
    intro hsome
    injection hsome with h2
    have h3 := natDigits_mem_digits a c hc
    rw [← h2] at h3
    exact absurd h3 (by decide)
  have hsep : ¬ placeholder i j <+: ('_' :: (natDigits b ++ '_' :: '_' :: tail)) := by
    intro hp
    rw [placeholder_eq, hDb] at hp
    simp only [List.cons_append] at hp
    rw [List.cons_prefix_cons] at hp
    obtain ⟨-, hp⟩ := hp
    rw [List.cons_prefix_cons] at hp
    have h2 : '_' = db := hp.1
    rw [← h2] at hdbD
    exact absurd hdbD (by decide)
  have hDbBlk : ∀ c ∈ natDigits b, (placeholder i j).head? ≠ some c := by
    intro c hc
    rw [placeholder_head]
    intro hsome
    injection hsome with h2
    have h3 := natDigits_mem_digits b c hc
    rw [← h2] at h3
    exact absurd h3 (by decide)
  have hp2 : ¬ placeholder i j <+: ('_' :: '_' :: tail) := by
    intro hp
    rw [placeholder_eq] at hp
    rw [List.cons_prefix_cons] at hp
    obtain ⟨-, hp⟩ := hp
    rw [List.cons_prefix_cons] at hp
    obtain ⟨-, hp⟩ := hp
    rcases htail with h | ⟨c, t, ht, hc⟩ | ⟨v, hv⟩
    · subst h
      obtain ⟨t2, ht2⟩ := hp
      simp at ht2
    · subst ht
      rw [List.cons_prefix_cons] at hp
      have h2 : 'P' = c := hp.1
      unfold goodChar at hc
      exact hc (by rw [← h2]; decide)
    · subst hv
      rw [List.cons_prefix_cons] at hp
      exact absurd hp.1 (by decide)
  have hp1 : ¬ placeholder i j <+: ('_' :: tail) := by
    intro hp
    rw [placeholder_eq] at hp
    rw [List.cons_prefix_cons] at hp
    obtain ⟨-, hp⟩ := hp
    rcases htail with h | ⟨c, t, ht, hc⟩ | ⟨v, hv⟩
    · subst h
      obtain ⟨t2, ht2⟩ := hp
      simp at ht2
    · subst ht
      rw [List.cons_prefix_cons] at hp
      have h2 : '_' = c := hp.1
      unfold goodChar at hc
      exact hc (by rw [← h2]; decide)
    · subst hv
      rw [List.cons_prefix_cons] at hp
      obtain ⟨-, hp⟩ := hp
      rw [List.cons_prefix_cons] at hp
      exact absurd hp.1 (by decide)
  rw [hform, hform2]
  rw [replaceAll_cons_no _ m hph '_' _ h0]
  rw [replaceAll_cons_no _ m hph '_' _ h1]
  rw [replaceAll_skip_block _ m hph PROT _ hPROT]
  rw [replaceAll_cons_no _ m hph '_' _ h11]
  rw [replaceAll_skip_block _ m hph (natDigits a) _ hDaBlk]
  rw [replaceAll_cons_no _ m hph '_' _ hsep]
  rw [replaceAll_skip_block _ m hph (natDigits b) _ hDbBlk]
  rw [replaceAll_cons_no _ m hph '_' _ hp2]
  rw [replaceAll_cons_no _ m hph '_' _ hp1]

theorem nodup_keys_eq {Q : List (PKey × LC)} (h : (Q.map Prod.fst).Nodup)
    {p q : PKey × LC} (hp : p ∈ Q) (hq : q ∈ Q) (hfst : p.1 = q.1) : p = q := by
  induction Q with
  | nil => exact absurd hp (List.not_mem_nil p)
  | cons e Q2 ih =>
    rw [List.map_cons, List.nodup_cons] at h
    rcases List.mem_cons.mp hp with hp1 | hp1
    · rcases List.mem_cons.mp hq with hq1 | hq1
      · rw [hp1, hq1]
      · exfalso
        have h2 : q.1 ∈ List.map Prod.fst Q2 := List.mem_map_of_mem Prod.fst hq1
        rw [← hfst] at h2
        rw [hp1] at h2
        exact h.1 h2
    · rcases List.mem_cons.mp hq with hq1 | hq1
      · exfalso
        have h2 : p.1 ∈ List.map Prod.fst Q2 := List.mem_map_of_mem Prod.fst hp1
        rw [hfst] at h2
        rw [hq1] at h2
        exact h.1 h2
      · exact ih h.2 hp1 hq1

/-- The rendered text is empty, starts with a good character, or starts
with the three fixed characters of a placeholder. -/
theorem renderItems_shape (Q : List (PKey × LC)) (items : List PItem)
    (hok : ItemsOk Q items) :
    renderItems items = [] ∨ (∃ c t, renderItems items = c :: t ∧ goodChar c)
      ∨ (∃ v, renderItems items = '_' :: '_' :: 'P' :: v) := by
  cases items with
  | nil => exact Or.inl rfl
  | cons it rest =>
    cases it with
    | inl c =>
      refine Or.inr (Or.inl ⟨c, renderItems rest, rfl, ?_⟩)
      exact hok.1 c (List.mem_cons_self _ _)
    | inr km =>
      refine Or.inr (Or.inr ⟨('R' :: 'O' :: 'T' :: 'E' :: 'C' :: 'T' :: 'E' :: 'D' :: '_'
        :: (natDigits km.1.1 ++ '_' :: (natDigits km.1.2 ++ ['_', '_']))) ++ renderItems rest, ?_⟩)
      show placeholder km.1.1 km.1.2 ++ renderItems rest = _
      rw [placeholder_eq]
      simp only [List.cons_append]

/-- One restoration step: replacing a recorded placeholder by its
original text substitutes exactly the items carrying that key. -/
theorem restore_step (Q : List (PKey × LC)) (hQ : (Q.map Prod.fst).Nodup)
    (k : PKey) (m : LC) (hkm : (k, m) ∈ Q) :
    ∀ (items : List PItem), ItemsOk Q items →
      replaceAll (placeholder k.1 k.2) m (renderItems items)
        = renderItems (substKey k items) := by
  intro items
  induction items with
  | nil =>
    intro _
    show replaceAll (placeholder k.1 k.2) m [] = renderItems (substKey k [])
    rw [replaceAll_nil _ _ (placeholder_ne_nil k.1 k.2)]
    rfl
  | cons it rest ih =>
    intro hok
    have hok2 := ItemsOk_tail hok
    cases it with
    | inl c =>
      have hc : goodChar c := hok.1 c (List.mem_cons_self _ _)
      have hno : ¬ placeholder k.1 k.2 <+: (c :: renderItems rest) := by
        intro hp
        rw [placeholder_eq] at hp
        rw [List.cons_prefix_cons] at hp
        unfold goodChar at hc
        exact hc (by rw [← hp.1]; decide)
      show replaceAll (placeholder k.1 k.2) m (c :: renderItems rest)
        = renderItems (substKey k (Sum.inl c :: rest))
      rw [replaceAll_cons_no _ m (placeholder_ne_nil k.1 k.2) c _ hno, ih hok2]
      rfl
    | inr km =>
      have hkmQ : km ∈ Q := hok.2 km (List.mem_cons_self _ _)
      by_cases hk : km.1 = k
      · have hkmeq : km = (k, m) := nodup_keys_eq hQ hkmQ hkm (by simp [hk])
        have hk1 : km.1.1 = k.1 := by rw [hk]
        have hk2 : km.1.2 = k.2 := by rw [hk]
        have hm : km.2 = m := by rw [hkmeq]
        show replaceAll (placeholder k.1 k.2) m (placeholder km.1.1 km.1.2 ++ renderItems rest)
          = renderItems (substKey k (Sum.inr km :: rest))
        rw [hk1, hk2]
        rw [replaceAll_cons_match _ m (placeholder_ne_nil k.1 k.2) _ (renderItems rest) rfl]
        rw [ih hok2]
        rw [show substKey k (Sum.inr km :: rest) = m.map Sum.inl ++ substKey k rest from by
          simp [substKey, hk, hm]]
        rw [renderItems_append, renderItems_map_inl]
      · have hne2 : ¬ (k.1 = km.1.1 ∧ k.2 = km.1.2) := by
          intro hcon
          apply hk
          have h2 : km.1 = (km.1.1, km.1.2) := rfl
          rw [h2, ← hcon.1, ← hcon.2]
        have hshape := renderItems_shape Q rest hok2
        show replaceAll (placeholder k.1 k.2) m (placeholder km.1.1 km.1.2 ++ renderItems rest)
          = renderItems (substKey k (Sum.inr km :: rest))
        rw [skipPh k.1 k.2 km.1.1 km.1.2 hne2 m (renderItems rest) hshape, ih hok2]
        rw [show substKey k (Sum.inr km :: rest) = Sum.inr km :: substKey k rest from by
          simp [substKey, hk]]
        rfl

theorem renderItems_all_inl (items : List PItem)
    (h : ∀ km, Sum.inr km ∈ items → False) :
    renderItems items = expandItems items := by
  induction items with
  | nil => rfl
  | cons it rest ih =>
    cases it with
    | inl c =>
      simp [renderItems, expandItems, renderItem, expandItem,
        ih (fun km hk => h km (List.mem_cons_of_mem _ hk))]
    | inr km => exact (h km (List.mem_cons_self _ _)).elim

theorem substKey_ok (q : PKey × LC) (Q : List (PKey × LC))
    (hgood : ∀ e, e ∈ q :: Q → goodStr e.2)
    (items : List PItem) (hok : ItemsOk (q :: Q) items) :
    ItemsOk Q (substKey q.1 items) := by
  induction items with
  | nil =>
    exact ⟨fun c hc => absurd hc (List.not_mem_nil _),
      fun km hkm => absurd hkm (List.not_mem_nil _)⟩
  | cons it rest ih =>
    have hok2 := ItemsOk_tail hok
    have ihr := ih hok2
    cases it with
    | inl c =>
      constructor
      · intro c2 hc2
        rw [show substKey q.1 (Sum.inl c :: rest) = Sum.inl c :: substKey q.1 rest from by
          simp [substKey]] at hc2
        rcases List.mem_cons.mp hc2 with h | h
        · injection h with h2
          rw [h2]
          exact hok.1 c (List.mem_cons_self _ _)
        · exact ihr.1 c2 h
      · intro km hkm
        rw [show substKey q.1 (Sum.inl c :: rest) = Sum.inl c :: substKey q.1 rest from by
          simp [substKey]] at hkm
        rcases List.mem_cons.mp hkm with h | h
        · exact absurd h (by simp)
        · exact ihr.2 km h
    | inr km =>
      have hkmQ : km ∈ q :: Q := hok.2 km (List.mem_cons_self _ _)
      by_cases hk : km.1 = q.1
      · have hsub : substKey q.1 (Sum.inr km :: rest)
            = km.2.map Sum.inl ++ substKey q.1 rest := by simp [substKey, hk]
        constructor
        · intro c2 hc2
          rw [hsub] at hc2
          rcases List.mem_append.mp hc2 with h | h
          · rw [List.mem_map] at h
            obtain ⟨d, hd, hde⟩ := h
            injection hde with h2
            rw [← h2]
            exact hgood km hkmQ d hd
          · exact ihr.1 c2 h
        · intro km2 hkm2
          rw [hsub] at hkm2
          rcases List.mem_append.mp hkm2 with h | h
          · rw [List.mem_map] at h
            obtain ⟨d, hd, hde⟩ := h
            exact absurd hde (by simp)
          · exact ihr.2 km2 h
      · have hsub : substKey q.1 (Sum.inr km :: rest)
            = Sum.inr km :: substKey q.1 rest := by simp [substKey, hk]
        constructor
        · intro c2 hc2
          rw [hsub] at hc2
          rcases List.mem_cons.mp hc2 with h | h
          · exact absurd h (by simp)
          · exact ihr.1 c2 h
        · intro km2 hkm2
          rw [hsub] at hkm2
          rcases List.mem_cons.mp hkm2 with h | h
          · injection h with h2
            rcases List.mem_cons.mp hkmQ with h3 | h3
            · exfalso
              rw [h3] at hk
              exact hk rfl
            · rw [h2]
              exact h3
          · exact ihr.2 km2 h

/-- Folding the recorded protections over the rendered text restores the
text the segments stand for. -/
theorem restore_fold :
    ∀ (Q : List (PKey × LC)), QOk Q → ∀ (items : List PItem), ItemsOk Q items →
      restore_expressions (renderItems items)
          (Q.map (fun q => (placeholder q.1.1 q.1.2, q.2)))
        = expandItems items := by
  intro Q
  induction Q with
  | nil =>
    intro _ items hok
    exact renderItems_all_inl items (fun km hkm => List.not_mem_nil km (hok.2 km hkm))
  | cons q Q2 ih =>
    intro hQ items hok
    have hnd := hQ.1
    rw [List.map_cons, List.nodup_cons] at hnd
    have hQ2 : QOk Q2 := ⟨hnd.2, fun e he => hQ.2 e (List.mem_cons_of_mem q he)⟩
    have hgood : ∀ e, e ∈ q :: Q2 → goodStr e.2 := fun e he => (hQ.2 e he).2
    have hmem : (q.1, q.2) ∈ q :: Q2 := by
      rw [Prod.mk.eta]
      exact List.mem_cons_self _ _
    have hstep := restore_step (q :: Q2) hQ.1 q.1 q.2 hmem items hok
    rw [List.map_cons]
    have hcons : restore_expressions (renderItems items)
        ((fun e => (placeholder e.1.1 e.1.2, e.2)) q
          :: List.map (fun e => (placeholder e.1.1 e.1.2, e.2)) Q2)
        = restore_expressions (replaceAll (placeholder q.1.1 q.1.2) q.2 (renderItems items))
            (List.map (fun e => (placeholder e.1.1 e.1.2, e.2)) Q2) := rfl
    rw [hcons, hstep]
    exact (ih hQ2 (substKey q.1 items) (substKey_ok q Q2 hgood items hok)).trans
      (expandItems_substKey q.1 items)

/-- A match over the good alphabet that is a prefix of the rendered text
splits off whole character items. -/
theorem good_prefix_split :
    ∀ (m : LC), (∀ c ∈ m, goodChar c) →
      ∀ (items : List PItem), (∀ c, Sum.inl c ∈ items → goodChar c) → ∀ t,
        renderItems items = m ++ t →
        ∃ rest2, items = m.map Sum.inl ++ rest2 ∧ renderItems rest2 = t := by
  intro m
  induction m with
  | nil =>
    intro _ items _ t heq
    exact ⟨items, by simp, by simpa using heq⟩
  | cons d m2 ih =>
    intro hm items hgood t heq
    cases items with
    | nil =>
      exfalso
      have h2 : ([] : LC) = d :: (m2 ++ t) := heq
      exact List.cons_ne_nil d (m2 ++ t) h2.symm
    | cons it rest =>
      cases it with
      | inl c =>
        have h2 : c :: renderItems rest = d :: (m2 ++ t) := heq
        injection h2 with h3 h4
        obtain ⟨rest2, hs, ht2⟩ := ih (fun c2 hc2 => hm c2 (List.mem_cons_of_mem _ hc2))
          rest (fun c2 hc2 => hgood c2 (List.mem_cons_of_mem _ hc2)) t h4
        refine ⟨rest2, ?_, ht2⟩
        rw [h3, hs]
        rfl
      | inr km =>
        exfalso
        have h2 : placeholder km.1.1 km.1.2 ++ renderItems rest = d :: (m2 ++ t) := heq
        rw [placeholder_eq] at h2
        simp only [List.cons_append] at h2
        injection h2 with h3
        have hd := hm d (List.mem_cons_self _ _)
        unfold goodChar at hd
        exact hd (by rw [← h3]; decide)

/-- One masking step of `protect_expressions`: replacing all occurrences
of a good non-empty match by a fresh placeholder transforms the segment
list, preserving what it stands for. -/
theorem protect_step (m : LC) (hm1 : m ≠ []) (hm2 : ∀ c ∈ m, goodChar c) (i j : Nat) :
    ∀ (n : Nat) (items : List PItem), items.length ≤ n →
      (∀ c, Sum.inl c ∈ items → goodChar c) →
      ∃ items2,
        renderItems items2 = replaceAll m (placeholder i j) (renderItems items)
        ∧ expandItems items2 = expandItems items
        ∧ (∀ c, Sum.inl c ∈ items2 → goodChar c)
        ∧ (∀ km, Sum.inr km ∈ items2 → Sum.inr km ∈ items ∨ km = ((i, j), m)) := by
  intro n
  induction n with
  | zero =>
    intro items hlen _
    have h0 : items = [] := List.length_eq_zero.mp (Nat.le_zero.mp hlen)
    subst h0
    refine ⟨[], ?_, rfl, ?_, ?_⟩
    · show ([] : LC) = replaceAll m (placeholder i j) []
      rw [replaceAll_nil m _ hm1]
    · intro c hc
      exact absurd hc (List.not_mem_nil _)
    · intro km hkm
      exact absurd hkm (List.not_mem_nil _)
  | succ n ih =>
    intro items hlen hgood
    cases items with
    | nil => exact ih [] (Nat.zero_le n) hgood
    | cons it rest =>
      cases it with
      | inr km =>
        have hblk : ∀ c ∈ placeholder km.1.1 km.1.2, m.head? ≠ some c := by
          intro c hc hsome
          have hcm : c ∈ m := by
            cases m with
            | nil => exact absurd hsome (by simp)
            | cons d t =>
              injection hsome with h2
              rw [← h2]
              exact List.mem_cons_self _ _
          have hbad := placeholder_mem_bad km.1.1 km.1.2 c hc
          have hgoodc := hm2 c hcm
          unfold goodChar at hgoodc
          exact hgoodc hbad
        have hlen2 : rest.length ≤ n := by
          rw [List.length_cons] at hlen
          omega
        obtain ⟨r2, hr, he, hg, hk⟩ := ih rest hlen2
          (fun c hc => hgood c (List.mem_cons_of_mem _ hc))
        refine ⟨Sum.inr km :: r2, ?_, ?_, ?_, ?_⟩
        · show placeholder km.1.1 km.1.2 ++ renderItems r2
            = replaceAll m (placeholder i j) (placeholder km.1.1 km.1.2 ++ renderItems rest)
          rw [replaceAll_skip_block m (placeholder i j) hm1 _ _ hblk]
          rw [hr]
        · show km.2 ++ expandItems r2 = km.2 ++ expandItems rest
          rw [he]
        · intro c hc
          rcases List.mem_cons.mp hc with h | h
          · exact absurd h (by simp)
          · exact hg c h
        · intro km2 hkm2
          rcases List.mem_cons.mp hkm2 with h | h
          · left
            rw [h]
            exact List.mem_cons_self _ _
          · rcases hk km2 h with h2 | h2
            · left
              exact List.mem_cons_of_mem _ h2
            · right
              exact h2
      | inl c =>
        by_cases hpre : m <+: (c :: renderItems rest)
        · obtain ⟨t, ht⟩ := hpre
          have hrend : renderItems (Sum.inl c :: rest) = m ++ t := by
            show c :: renderItems rest = m ++ t
            rw [ht]
          obtain ⟨rest2, hsplit, ht2⟩ := good_prefix_split m hm2 (Sum.inl c :: rest) hgood t hrend
          have hlen3 : rest2.length ≤ n := by
            have hlq := congrArg List.length hsplit
            rw [List.length_cons, List.length_append, List.length_map] at hlq
            rw [List.length_cons] at hlen
            have hm0 : 0 < m.length := List.length_pos.mpr hm1
            omega
          have hgood2 : ∀ c2, Sum.inl c2 ∈ rest2 → goodChar c2 := by
            intro c2 hc2
            apply hgood
            rw [hsplit]
            exact List.mem_append_right _ hc2
          obtain ⟨r2, hr, he, hg, hk⟩ := ih rest2 hlen3 hgood2
          refine ⟨Sum.inr ((i, j), m) :: r2, ?_, ?_, ?_, ?_⟩
          · show placeholder i j ++ renderItems r2
              = replaceAll m (placeholder i j) (renderItems (Sum.inl c :: rest))
            rw [hrend]
            rw [replaceAll_cons_match m (placeholder i j) hm1 (m ++ t) t rfl]
            rw [hr, ht2]
          · show m ++ expandItems r2 = expandItems (Sum.inl c :: rest)
            rw [he, hsplit, expandItems_append, expandItems_map_inl]
          · intro c2 hc2
            rcases List.mem_cons.mp hc2 with h | h
            · exact absurd h (by simp)
            · exact hg c2 h
          · intro km2 hkm2
            rcases List.mem_cons.mp hkm2 with h | h
            · right
              exact Sum.inr.inj h
            · rcases hk km2 h with h2 | h2
              · left
                rw [hsplit]
                exact List.mem_append_right _ h2
              · right
                exact h2
        · have hlen2 : rest.length ≤ n := by
            rw [List.length_cons] at hlen
            omega
          obtain ⟨r2, hr, he, hg, hk⟩ := ih rest hlen2
            (fun c2 hc2 => hgood c2 (List.mem_cons_of_mem _ hc2))
          refine ⟨Sum.inl c :: r2, ?_, ?_, ?_, ?_⟩
          · show c :: renderItems r2
              = replaceAll m (placeholder i j) (c :: renderItems rest)
            rw [replaceAll_cons_no m (placeholder i j) hm1 c _ hpre]
            rw [hr]
          · show c :: expandItems r2 = c :: expandItems rest
            rw [he]
          · intro c2 hc2
            rcases List.mem_cons.mp hc2 with h | h
            · injection h with h2
              rw [h2]
              exact hgood c (List.mem_cons_self _ _)
            · exact hg c2 h
          · intro km2 hkm2
            rcases List.mem_cons.mp hkm2 with h | h
            · exact absurd h (by simp)
            · rcases hk km2 h with h2 | h2
              · left
                exact List.mem_cons_of_mem _ h2
              · right
                exact h2

/-- Strict lexicographic order on placeholder keys, used to keep the
keys issued so far distinct from the next key. -/
def KeyBelow (km bd : PKey) : Prop := km.1 < bd.1 ∨ (km.1 = bd.1 ∧ km.2 < bd.2)

/-- Invariant of the protection folds: the working text renders a
well-formed segment list standing for the original text, and the
protections dict lists exactly the recorded keys, all below the next
key to be issued. -/
def ProtInv (text : LC) (bd : PKey) (st : LC × List (LC × LC)) : Prop :=
  ∃ items Q, renderItems items = st.1
    ∧ expandItems items = text
    ∧ ItemsOk Q items
    ∧ QOk Q
    ∧ st.2 = Q.map (fun q => (placeholder q.1.1 q.1.2, q.2))
    ∧ ∀ km ∈ Q.map Prod.fst, KeyBelow km bd

theorem protectInner_inv (text : LC) (i : Nat) :
    ∀ (ms : List LC) (j : Nat) (st : LC × List (LC × LC)),
      (∀ m ∈ ms, m ≠ [] ∧ ∀ c ∈ m, goodChar c) →
      ProtInv text (i, j) st →
      ProtInv text (i, j + ms.length) (protectInner i ms j st) := by
  intro ms
  induction ms with
  | nil =>
    intro j st _ hinv
    simpa [protectInner] using hinv
  | cons m ms2 ih =>
    intro j st hms hinv
    obtain ⟨items, Q, hr, he, hok, hQ, hP, hbd⟩ := hinv
    have hm := hms m (List.mem_cons_self _ _)
    obtain ⟨items2, hr2, he2, hg2, hk2⟩ :=
      protect_step m hm.1 hm.2 i j items.length items (le_refl _) hok.1
    have hfresh : ((i, j) : PKey) ∉ Q.map Prod.fst := by
      intro hmem
      have hb := hbd _ hmem
      unfold KeyBelow at hb
      rcases hb with h | h
      · exact absurd h (Nat.lt_irrefl i)
      · exact absurd h.2 (Nat.lt_irrefl j)
    have hinv2 : ProtInv text (i, j + 1)
        (replaceAll m (placeholder i j) st.1, st.2 ++ [(placeholder i j, m)]) := by
      refine ⟨items2, Q ++ [((i, j), m)], ?_, ?_, ?_, ?_, ?_, ?_⟩
      · show renderItems items2 = replaceAll m (placeholder i j) st.1
        rw [hr2, hr]
      · rw [he2, he]
      · constructor
        · exact hg2
        · intro km hkm
          rcases hk2 km hkm with h | h
          · exact List.mem_append_left _ (hok.2 km h)
          · rw [h]
            exact List.mem_append_right _ (List.mem_cons_self _ _)
      · constructor
        · rw [List.map_append]
          refine List.nodup_append.mpr ⟨hQ.1, by simp, ?_⟩
          intro a ha hb2
          have hb3 : a = ((i, j) : PKey) := by simpa using hb2
          rw [hb3] at ha
          exact hfresh ha
        · intro e he2
          rcases List.mem_append.mp he2 with h | h
          · exact hQ.2 e h
          · rw [List.mem_singleton] at h
            rw [h]
            exact ⟨hm.1, hm.2⟩
      · show st.2 ++ [(placeholder i j, m)] = _
        rw [List.map_append, hP]
        rfl
      · intro km hkm
        rw [List.map_append] at hkm
        rcases List.mem_append.mp hkm with h | h
        · have hb := hbd km h
          unfold KeyBelow at hb ⊢
          rcases hb with h2 | h2
          · left
            exact h2
          · right
            exact ⟨h2.1, Nat.lt_succ_of_lt h2.2⟩
        · have h2 : km = ((i, j) : PKey) := by simpa using h
          rw [h2]
          unfold KeyBelow
          right
          exact ⟨rfl, Nat.lt_succ_self j⟩
    have hres := ih (j + 1) _ (fun m2 hm2a => hms m2 (List.mem_cons_of_mem _ hm2a)) hinv2
    rw [show protectInner i (m :: ms2) j st
      = protectInner i ms2 (j + 1)
          (replaceAll m (placeholder i j) st.1, st.2 ++ [(placeholder i j, m)]) from rfl]
    rw [show j + (m :: ms2).length = j + 1 + ms2.length from by
      rw [List.length_cons]
      omega]
    exact hres

theorem protectOuter_inv (text : LC) :
    ∀ (ps : List FindAll) (i : Nat) (st : LC × List (LC × LC)),
      (∀ p ∈ ps, ∀ m ∈ p text, m ≠ [] ∧ ∀ c ∈ m, goodChar c) →
      ProtInv text (i, 0) st →
      ∃ bd, ProtInv text bd (protectOuter text i ps st) := by
  intro ps
  induction ps with
  | nil =>
    intro i st _ hinv
    exact ⟨(i, 0), hinv⟩
  | cons p ps2 ih =>
    intro i st hps hinv
    have h1 := protectInner_inv text i (p text) 0 st (hps p (List.mem_cons_self _ _)) hinv
    have h2 : ProtInv text (i + 1, 0) (protectInner i (p text) 0 st) := by
      obtain ⟨items, Q, hr, he, hok, hQ, hP, hbd⟩ := h1
      refine ⟨items, Q, hr, he, hok, hQ, hP, ?_⟩
      intro km hkm
      have hb := hbd km hkm
      unfold KeyBelow at hb ⊢
      left
      rcases hb with h | h
      · exact Nat.lt_succ_of_lt h
      · rw [h.1]
        exact Nat.lt_succ_self i
    exact ih (i + 1) _ (fun p2 hp2 => hps p2 (List.mem_cons_of_mem _ hp2)) h2

/-- Claim C2 (amended): the protect/restore round trip is the identity
whenever the text and all the matches the patterns produce on it avoid
the placeholder alphabet and no match is empty.  (The unamended claim is
refuted by `C2_cex_roundtrip_fails_on_digit_matches`.) -/
theorem C2_protect_restore_roundtrip (text : LC) (patterns : List FindAll)
    (htext : ∀ c ∈ text, goodChar c)
    (hpat : ∀ p ∈ patterns, ∀ m ∈ p text, m ≠ [] ∧ ∀ c ∈ m, goodChar c) :
    restore_expressions (protect_expressions text patterns).1
        (protect_expressions text patterns).2 = text := by
  have hinit : ProtInv text (0, 0) (text, []) := by
    refine ⟨text.map Sum.inl, [], renderItems_map_inl text, expandItems_map_inl text,
      ?_, ?_, rfl, ?_⟩
    · constructor
      · intro c hc
        rw [List.mem_map] at hc
        obtain ⟨a, ha, hae⟩ := hc
        have h2 : a = c := Sum.inl.inj hae
        rw [← h2]
        exact htext a ha
      · intro km hkm
        rw [List.mem_map] at hkm
        obtain ⟨a, ha, hae⟩ := hkm
        exact absurd hae (by simp)
    · exact ⟨List.nodup_nil, fun q hq => absurd hq (List.not_mem_nil q)⟩
    · intro km hkm
      exact absurd hkm (List.not_mem_nil km)
  obtain ⟨bd, hfin⟩ := protectOuter_inv text patterns 0 (text, []) hpat hinit
  obtain ⟨items, Q, hr, he, hok, hQ, hP, -⟩ := hfin
  rw [show protect_expressions text patterns = protectOuter text 0 patterns (text, []) from rfl]
  rw [← hr, hP]
  rw [restore_fold Q hQ items hok]
  exact he

/-- Concrete pattern for the round-trip witness: two identical matches. -/
def c2wPat : FindAll := fun t => if t = s2l "ab ab" then [s2l "ab", s2l "ab"] else []

theorem C2_roundtrip_witness :
    restore_expressions (protect_expressions (s2l "ab ab") [c2wPat]).1
        (protect_expressions (s2l "ab ab") [c2wPat]).2 = s2l "ab ab" :=
  C2_protect_restore_roundtrip (s2l "ab ab") [c2wPat] (by decide)
    (by
      intro p hp
      rw [List.mem_singleton] at hp
      subst hp
      decide)
